import Mathlib

set_option autoImplicit false

namespace HarborPodman

-- ===================================================================
-- Python strings are modelled as lists of characters.  The helper
-- functions below embed the Python `str` primitives that the scripts
-- use: `strip`, `split`, `isdigit`, `str(int)`, `int(str)`, `join`.
-- ===================================================================

abbrev Str := List Char

def strOf (s : String) : Str := s.data

def dquoteChar : Char := Char.ofNat 34

def nlChar : Char := Char.ofNat 10

def emptyMapMarker : Str := [Char.ofNat 123, Char.ofNat 125]

def emptyListMarker : Str := [Char.ofNat 91, Char.ofNat 93]

-- Whitespace characters recognised by Python `str.strip()`.
def isSpaceCh (c : Char) : Bool :=
  c = ' ' || c = '\t' || c = nlChar || c = '\x0d' || c = '\x0b' || c = '\x0c'

def stripLeft (s : Str) : Str := s.dropWhile isSpaceCh

def stripRight (s : Str) : Str := (s.reverse.dropWhile isSpaceCh).reverse

-- Python `str.strip()` with no arguments.
def pyStrip (s : Str) : Str := stripRight (stripLeft s)

-- Python `str.strip(c)` for a single character argument.
def stripChar (c : Char) (s : Str) : Str :=
  ((s.dropWhile (fun d => d = c)).reverse.dropWhile (fun d => d = c)).reverse

def containsCh (c : Char) (s : Str) : Bool := s.any (fun d => d = c)

def headIsHash : Str → Bool
  | [] => false
  | c :: _ => c = '#'

def endsWithBackslash (s : Str) : Bool := s.getLast? = some '\\'

-- Python `line.split(sep)` (split at every occurrence).
def splitOnChar (c : Char) : Str → List Str
  | [] => [[]]
  | a :: rest =>
    let r := splitOnChar c rest
    if a = c then [] :: r else (a :: r.headD []) :: r.tail

-- Python `line.split(sep, 1)` when the separator occurs: returns the
-- parts before and after the first occurrence of `c`.
def breakAtChar (c : Char) : Str → Option (Str × Str)
  | [] => none
  | a :: rest =>
    if a = c then some ([], rest)
    else (breakAtChar c rest).map (fun p => (a :: p.1, p.2))

-- Python `"\n".join(lines)`.
def joinLines : List Str → Str
  | [] => []
  | [l] => l
  | l :: rest => l ++ nlChar :: joinLines rest

def isDigitCh (c : Char) : Bool := '0' ≤ c && c ≤ '9'

-- Python `str.isdigit()` (restricted to ASCII digits).
def pyIsDigit (s : Str) : Bool := !s.isEmpty && s.all isDigitCh

def digitToNat (c : Char) : Nat := c.toNat - 48

def strToNatCore (s : Str) : Nat := s.foldl (fun a c => 10 * a + digitToNat c) 0

def digitChar (d : Nat) : Char := Char.ofNat (48 + d)

-- Python `str(n)` for a natural number, via a fuel parameter so that the
-- kernel can evaluate it on concrete inputs.
def natToStrAux : Nat → Nat → Str
  | 0, _ => []
  | fuel + 1, n =>
    if n < 10 then [digitChar n]
    else natToStrAux fuel (n / 10) ++ [digitChar (n % 10)]

def natToStr (n : Nat) : Str := natToStrAux (n + 1) n

-- Python `str(i)` for an integer.
def intToStr (i : Int) : Str :=
  if i < 0 then '-' :: natToStr i.natAbs else natToStr i.toNat

-- Digit groups accepted by Python `int()`: digits with single
-- underscores allowed strictly between digits.
def digitsUOK : Str → Bool
  | [] => false
  | [c] => isDigitCh c
  | c :: '_' :: rest => isDigitCh c && digitsUOK rest
  | c :: d :: rest => isDigitCh c && digitsUOK (d :: rest)

def digitsUVal (s : Str) : Nat := strToNatCore (s.filter (fun c => !(c = '_')))

-- Python `int(s)`: optional surrounding whitespace, optional sign,
-- then a digit group; `none` models `ValueError`.
def pyInt (s : Str) : Option Int :=
  match pyStrip s with
  | '+' :: rest => if digitsUOK rest then some (Int.ofNat (digitsUVal rest)) else none
  | '-' :: rest => if digitsUOK rest then some (-(Int.ofNat (digitsUVal rest))) else none
  | t => if digitsUOK t then some (Int.ofNat (digitsUVal t)) else none

-- ===================================================================
-- Association lists standing for Python dicts.
-- ===================================================================

-- Python `d[k] = v`: replace in place when the key exists, else append.
def dictInsert {β : Type} (m : List (Str × β)) (k : Str) (v : β) : List (Str × β) :=
  if m.any (fun e => e.1 = k) then
    m.map (fun e => if e.1 = k then (k, v) else e)
  else m ++ [(k, v)]

-- Lookup of a key (the first binding wins; dicts have unique keys).
def dictFind? {β : Type} (m : List (Str × β)) (k : Str) : Option β :=
  match m with
  | [] => none
  | e :: rest => if e.1 = k then some e.2 else dictFind? rest k

def hasKey {β : Type} (m : List (Str × β)) (k : Str) : Bool :=
  m.any (fun e => e.1 = k)

-- Python `d.get(k)` on a dict whose stored values are themselves
-- optional: a missing key and a stored `None` both give `None`.
def dictGet {β : Type} (m : List (Str × Option β)) (k : Str) : Option β :=
  (dictFind? m k).join

-- Insertion sort by key, standing for Python `sorted(d.items())`
-- (keys of a dict are distinct, so values never get compared).
def strLe : Str → Str → Bool
  | [], _ => true
  | _ :: _, [] => false
  | a :: as, b :: bs => a < b || (a = b && strLe as bs)

def insertSorted {β : Type} (x : Str × β) : List (Str × β) → List (Str × β)
  | [] => [x]
  | y :: rest => if strLe x.1 y.1 then x :: y :: rest else y :: insertSorted x rest

def sortPairs {β : Type} (m : List (Str × β)) : List (Str × β) :=
  m.foldr insertSorted []

-- ===================================================================
-- container_host_uid_map.py : the Mapping Store and the Subuid
-- Resolver.  A container-to-UID mapping is an association list from
-- names to optional integers.
-- ===================================================================

abbrev CMap := List (Str × Option Int)

inductive LoadError where
  | unsupportedValue (container : Str) (value : Str)
  | notAMapping
  deriving DecidableEq, Repr

-- Embeds `load_yaml_simple` from container_host_uid_map.py, working on
-- the file's physical lines (the file content split at newlines).
def loadSimpleLines : List Str → CMap → Except LoadError CMap
  | [], mapping => .ok mapping
  | raw :: rest, mapping =>
    let line := pyStrip raw
    if line.isEmpty then loadSimpleLines rest mapping
    else if headIsHash line then loadSimpleLines rest mapping
    else if line = emptyMapMarker ∨ line = emptyListMarker then .ok []
    else if containsCh ':' line = false then loadSimpleLines rest mapping
    else
      match breakAtChar ':' line with
      | none => loadSimpleLines rest mapping
      | some (name, value) =>
        let key := pyStrip name
        let val := stripChar dquoteChar (pyStrip value)
        if val.isEmpty ∨ val = strOf "null" ∨ val = ['~'] then
          loadSimpleLines rest (dictInsert mapping key none)
        else if pyIsDigit val then
          loadSimpleLines rest (dictInsert mapping key (some (Int.ofNat (strToNatCore val))))
        else .error (.unsupportedValue key val)

def load_yaml_simple (content : Str) : Except LoadError CMap :=
  loadSimpleLines (splitOnChar nlChar content) []

-- Scalar values produced by the structured YAML engine on this
-- pipeline's mapping files.
inductive YVal where
  | ynull
  | yint (n : Int)
  | ystr (s : Str)
  deriving DecidableEq, Repr

/-- Modelled from the spec: the structured YAML engine (`yaml.safe_load`)
is an external collaborator whose code is not part of this repository.
The spec restricts the mapping-file dialect to sorted `name: value`
lines whose values are bare non-negative integers or a null literal,
plus a single empty-mapping marker line, with blank lines and `#`
comments ignored.  This definition parses exactly that dialect: each
non-blank non-comment line is split at its first colon, the key and the
value token are stripped, and the token resolves to null, to an integer
or to a plain string scalar. -/
def yamlParseLines : List Str → List (Str × YVal) → Option (List (Str × YVal))
  | [], acc => some acc
  | raw :: rest, acc =>
    let line := pyStrip raw
    if line.isEmpty then yamlParseLines rest acc
    else if headIsHash line then yamlParseLines rest acc
    else if line = emptyMapMarker then yamlParseLines rest acc
    else if line = emptyListMarker then none
    else
      match breakAtChar ':' line with
      | none => none
      | some (name, value) =>
        let key := pyStrip name
        let tok := pyStrip value
        let yv :=
          if tok.isEmpty ∨ tok = strOf "null" ∨ tok = ['~'] then YVal.ynull
          else if pyIsDigit tok then YVal.yint (Int.ofNat (strToNatCore tok))
          else YVal.ystr tok
        yamlParseLines rest (dictInsert acc key yv)

/-- Modelled from the spec: entry point of the external structured YAML
parser on the pipeline's restricted mapping dialect; `none` stands for
"the document is not a mapping". -/
def yamlSafeLoad (content : Str) : Option (List (Str × YVal)) :=
  yamlParseLines (splitOnChar nlChar content) []

-- Embeds the value-coercion loop of `load_container_map` (the branch
-- taken when the structured parser is available).
def coerceData : List (Str × YVal) → CMap → Except LoadError CMap
  | [], result => .ok result
  | (key, value) :: rest, result =>
    match value with
    | .ynull => coerceData rest (dictInsert result key none)
    | .yint n => coerceData rest (dictInsert result key (some n))
    | .ystr s =>
      if pyIsDigit s then coerceData rest (dictInsert result key (some (Int.ofNat (strToNatCore s))))
      else .error (.unsupportedValue key s)

-- Embeds `load_container_map`: an all-whitespace file yields the empty
-- mapping; otherwise the structured parser is preferred when available
-- and the line-oriented fallback is used otherwise.
def load_container_map (yamlAvailable : Bool) (content : Str) : Except LoadError CMap :=
  if (pyStrip content).isEmpty then .ok []
  else if yamlAvailable then
    match yamlSafeLoad content with
    | none => .error .notAMapping
    | some data => coerceData data []
  else load_yaml_simple content

-- Embeds `compute_host_uids`; `os_uid` is the UID of the invoking
-- process (`os.getuid()`).
def compute_host_uids (mapping : CMap) (subuid_base : Int) (os_uid : Nat) : CMap :=
  mapping.map (fun e =>
    (e.1, e.2.map (fun container_uid =>
      if os_uid ≠ 0 then subuid_base + container_uid - 1
      else subuid_base + container_uid)))

-- Rendering of one value: `"null" if uid is None else str(uid)`.
def renderVal (uid? : Option Int) : Str :=
  match uid? with
  | none => strOf "null"
  | some uid => intToStr uid

-- One output line of `write_yaml`.
def mkPairLine (e : Str × Option Int) : Str := e.1 ++ strOf ": " ++ renderVal e.2

-- Embeds `write_yaml` from container_host_uid_map.py: entries sorted by
-- name, `null` for an absent UID, an empty-mapping marker for an empty
-- map, lines joined by newlines with a trailing newline.
def write_yaml (mapping : CMap) : Str :=
  let lines := (sortPairs mapping).map mkPairLine
  let lines := if lines.isEmpty then [emptyMapMarker] else lines
  joinLines lines ++ [nlChar]

inductive SubuidError where
  | invalidBase (username : Str) (field : Str)
  | noEntry (username : Str)
  deriving DecidableEq, Repr

-- Embeds `get_current_user_subuid`, given the invoking user's name and
-- the physical lines of the subuid registry file.
def get_current_user_subuid (username : Str) : List Str → Except SubuidError Int
  | [] => .error (.noEntry username)
  | raw :: rest =>
    let line := pyStrip raw
    if line.isEmpty then get_current_user_subuid username rest
    else if headIsHash line then get_current_user_subuid username rest
    else
      let parts := splitOnChar ':' line
      if parts.length < 3 then get_current_user_subuid username rest
      else if parts.headD [] = username then
        match pyInt (parts.getD 1 []) with
        | some base => .ok base
        | none => .error (.invalidBase username (parts.getD 1 []))
      else get_current_user_subuid username rest

-- ===================================================================
-- container_uid_map.py : the Definition Scanner.
-- ===================================================================

-- Embeds `read_effective_lines`; the Dockerfile is given as its list of
-- physical lines (newline characters already removed, as done by
-- `raw_line.rstrip("\n")` on each line of the file).
def readEffectiveGo (pending : Str) : List Str → List Str
  | [] => if pending.isEmpty then [] else [pyStrip pending]
  | raw :: rest =>
    let stripped := pyStrip raw
    if stripped.isEmpty then
      if pending.isEmpty then readEffectiveGo [] rest
      else pyStrip pending :: readEffectiveGo [] rest
    else if headIsHash stripped then readEffectiveGo pending rest
    else if endsWithBackslash raw then readEffectiveGo (pending ++ raw.dropLast ++ [' ']) rest
    else
      let p := pending ++ raw
      if p.isEmpty then readEffectiveGo [] rest
      else pyStrip p :: readEffectiveGo [] rest

def read_effective_lines (physical : List Str) : List Str :=
  readEffectiveGo [] physical

-- Python `str.split()` with no arguments: split on whitespace runs,
-- dropping empty pieces; `fuel` makes the recursion structural.
def pySplitWsAux : Nat → Str → List Str
  | 0, _ => []
  | _ + 1, [] => []
  | fuel + 1, c :: rest =>
    if isSpaceCh c then pySplitWsAux fuel rest
    else (c :: rest.takeWhile (fun d => !isSpaceCh d)) ::
      pySplitWsAux fuel (rest.dropWhile (fun d => !isSpaceCh d))

def pySplitWs (s : Str) : List Str := pySplitWsAux (s.length + 1) s

inductive ShMode where
  | norm
  | insingle
  | indouble
  deriving DecidableEq, Repr

def squoteChar : Char := Char.ofNat 39

/-- Modelled from the spec: the shell-style tokenizer (`shlex.split`
with comment support) is library code not part of this repository.  The
spec asks for tokenization "with shell-style quoting rules": tokens are
whitespace-separated, single and double quotes group characters, a
backslash escapes the next character (inside double quotes only a
double quote or a backslash), `#` outside quotes starts a comment, and
unbalanced quoting is an error.  `cur` is the token being accumulated
and the fuel makes the recursion structural. -/
def shlexCore : Nat → ShMode → Option Str → Str → Except Unit (List Str)
  | 0, _, _, _ => .error ()
  | _ + 1, .norm, cur, [] => .ok (match cur with | some t => [t] | none => [])
  | fuel + 1, .norm, cur, c :: rest =>
    if isSpaceCh c then
      match cur with
      | some t => (shlexCore fuel .norm none rest).map (fun ts => t :: ts)
      | none => shlexCore fuel .norm none rest
    else if c = '#' then .ok (match cur with | some t => [t] | none => [])
    else if c = squoteChar then shlexCore fuel .insingle (some (cur.getD [])) rest
    else if c = dquoteChar then shlexCore fuel .indouble (some (cur.getD [])) rest
    else if c = '\\' then
      match rest with
      | [] => .error ()
      | e :: rest2 => shlexCore fuel .norm (some (cur.getD [] ++ [e])) rest2
    else shlexCore fuel .norm (some (cur.getD [] ++ [c])) rest
  | _ + 1, .insingle, _, [] => .error ()
  | fuel + 1, .insingle, cur, c :: rest =>
    if c = squoteChar then shlexCore fuel .norm cur rest
    else shlexCore fuel .insingle (some (cur.getD [] ++ [c])) rest
  | _ + 1, .indouble, _, [] => .error ()
  | fuel + 1, .indouble, cur, c :: rest =>
    if c = dquoteChar then shlexCore fuel .norm cur rest
    else if c = '\\' then
      match rest with
      | [] => .error ()
      | e :: rest2 =>
        if e = dquoteChar ∨ e = '\\' then
          shlexCore fuel .indouble (some (cur.getD [] ++ [e])) rest2
        else shlexCore fuel .indouble (some (cur.getD [] ++ [c, e])) rest2
    else shlexCore fuel .indouble (some (cur.getD [] ++ [c])) rest

/-- Modelled from the spec: entry point of the shell-style tokenizer on
one logical line. -/
def shlexSplitLine (line : Str) : Except Unit (List Str) :=
  shlexCore (line.length + 1) .norm none line

-- Embeds the tokenization step of `find_uid_in_file`: shell-style
-- tokenization, falling back to naive whitespace splitting when the
-- tokenizer raises (unbalanced quoting).
def tokenizeLine (line : Str) : List Str :=
  match shlexSplitLine line with
  | .ok tokens => tokens
  | .error _ => pySplitWs line

-- Python `candidate[1:]` when the candidate starts with `=`.
def dropLeadingEq : Str → Str
  | '=' :: rest => rest
  | s => s

-- Embeds `extract_uid_from_tokens`.  The Python loop walks the token
-- list with an index and a one-token lookahead; the recursion below
-- walks the same list structurally.
def extract_uid_from_tokens : List Str → Option Str
  | [] => none
  | token :: rest =>
    if token = strOf "-u" ∨ token = strOf "--uid" then
      match rest with
      | value :: _ =>
        if pyIsDigit value then some value else extract_uid_from_tokens rest
      | [] => extract_uid_from_tokens rest
    else if (strOf "-u").isPrefixOf token ∧ token ≠ strOf "-u"
        ∧ pyIsDigit (dropLeadingEq (token.drop 2)) then
      some (dropLeadingEq (token.drop 2))
    else if (strOf "--uid=").isPrefixOf token ∧ pyIsDigit (token.drop 6) then
      some (token.drop 6)
    else extract_uid_from_tokens rest

-- Declarative reading of the spec sentence: whether the token at
-- position `i` marks a purely-numeric UID value, and which value.
def uidFlagMatch (tokens : List Str) (i : Nat) : Option Str :=
  match tokens.get? i with
  | none => none
  | some token =>
    if token = strOf "-u" ∨ token = strOf "--uid" then
      match tokens.get? (i + 1) with
      | some value => if pyIsDigit value then some value else none
      | none => none
    else if (strOf "-u").isPrefixOf token ∧ token ≠ strOf "-u"
        ∧ pyIsDigit (dropLeadingEq (token.drop 2)) then
      some (dropLeadingEq (token.drop 2))
    else if (strOf "--uid=").isPrefixOf token ∧ pyIsDigit (token.drop 6) then
      some (token.drop 6)
    else none

-- Embeds `find_uid_in_file` on the file's physical lines: the first
-- logical line whose tokens yield a UID decides the result.
def find_uid_in_file (physical : List Str) : Option Str :=
  (read_effective_lines physical).findSome?
    (fun line => extract_uid_from_tokens (tokenizeLine line))

-- Scanner results map container names to optional UID strings.
abbrev SMap := List (Str × Option Str)

-- The fixed alias table from `main` of container_uid_map.py.
def alias_pairs : List (Str × Str) :=
  [(strOf "database", strOf "db"),
   (strOf "secret/cert", strOf "nginx"),
   (strOf "secret/core", strOf "core")]

-- One iteration of the alias-propagation loop of `main`: the alias is
-- bound to `mapping.get(target)` only when not already present.
def aliasStep (a t : Str) (X : SMap) : SMap :=
  if hasKey X a then X else X ++ [(a, dictGet X t)]

-- Embeds the alias-propagation loop of `main`.
def applyAliases (mapping : SMap) : SMap :=
  alias_pairs.foldl (fun acc p => aliasStep p.1 p.2 acc) mapping

-- ===================================================================
-- apply_container_host_uids.py : the ACL Applicator.  The filesystem
-- and the external setfacl tool are modelled as an environment.
-- ===================================================================

inductive SetfaclOutcome where
  | notFound
  | exited (rc : Int) (stderr : Str)
  deriving DecidableEq, Repr

structure ApplyEnv where
  dirExists : Str → Bool
  setfacl : List Str → SetfaclOutcome

inductive ApplyEvent where
  | skipNoUid (name : Str)
  | skipNoDir (name : Str) (target : Str)
  | dryRunPrint (command : List Str)
  | ranSetfacl (command : List Str)
  deriving DecidableEq, Repr

inductive ApplyFatal where
  | setfaclNotFound
  | setfaclFailed (target : Str) (rc : Int) (stderr : Str)
  deriving DecidableEq, Repr

-- The exact command list built by `apply_setfacl`.
def setfaclCommand (root : Str) (uid : Int) : List Str :=
  [strOf "setfacl", strOf "-R",
   strOf "-m", strOf "u:" ++ intToStr uid ++ strOf ":rwx",
   strOf "-m", strOf "g:" ++ intToStr uid ++ strOf ":rwx",
   root]

-- Embeds `apply_setfacl`: in dry-run mode only the command line is
-- printed; otherwise a missing tool or a non-zero exit is fatal.
def apply_setfacl (env : ApplyEnv) (root : Str) (uid : Int) (dry_run : Bool) :
    Except ApplyFatal (List ApplyEvent) :=
  let command := setfaclCommand root uid
  if dry_run then .ok [.dryRunPrint command]
  else
    match env.setfacl command with
    | .notFound => .error .setfaclNotFound
    | .exited rc stderr =>
      if rc ≠ 0 then .error (.setfaclFailed root rc stderr)
      else .ok [.ranSetfacl command]

def joinPath (root name : Str) : Str := root ++ '/' :: name

-- Embeds the entry loop of `main` in apply_container_host_uids.py,
-- returning the processed tally and the per-entry log.
def runEntries (env : ApplyEnv) (root : Str) (dry_run : Bool) :
    List (Str × Option Int) → Except ApplyFatal (Nat × List ApplyEvent)
  | [] => .ok (0, [])
  | (name, uid?) :: rest =>
    match uid? with
    | none =>
      (runEntries env root dry_run rest).map (fun r => (r.1, .skipNoUid name :: r.2))
    | some uid =>
      let target := joinPath root name
      if env.dirExists target = false then
        (runEntries env root dry_run rest).map
          (fun r => (r.1, .skipNoDir name target :: r.2))
      else
        match apply_setfacl env target uid dry_run with
        | .error e => .error e
        | .ok evs =>
          (runEntries env root dry_run rest).map (fun r => (r.1 + 1, evs ++ r.2))

-- The loop runs over the mapping's entries in sorted name order.
def mainApply (env : ApplyEnv) (root : Str) (dry_run : Bool) (host_map : CMap) :
    Except ApplyFatal (Nat × List ApplyEvent) :=
  runEntries env root dry_run (sortPairs host_map)

-- ===================================================================
-- Well-formed container names and value conditions used by the
-- round-trip development.
-- ===================================================================

-- A well-formed container name: unchanged by stripping, free of colons
-- and newlines, and not starting with the comment character.
def goodKey (k : Str) : Prop :=
  pyStrip k = k ∧ containsCh ':' k = false ∧ containsCh nlChar k = false ∧
    headIsHash k = false

instance (k : Str) : Decidable (goodKey k) := by
  unfold goodKey
  infer_instance

-- Values written by the pipeline are absent or non-negative.
def valueOk (v : Option Int) : Prop := ∀ u, v = some u → 0 ≤ u

instance (v : Option Int) : Decidable (valueOk v) := by
  unfold valueOk
  cases v with
  | none => exact isTrue (by intro u h; cases h)
  | some u =>
    by_cases h : 0 ≤ u
    · exact isTrue (by intro x hx; cases hx; exact h)
    · exact isFalse (fun hc => h (hc u rfl))

-- The YAML scalar corresponding to a stored optional UID.
def yvalOfVal : Option Int → YVal
  | none => .ynull
  | some u => .yint u

def toYPair (e : Str × Option Int) : Str × YVal := (e.1, yvalOfVal e.2)

-- A raw mapping-file line `name: value` with an arbitrary value token.
def mkRawLine (k val : Str) : Str := k ++ strOf ": " ++ val

-- ===================================================================
-- Supporting lemmas: dropWhile, strip, split, digits.
-- ===================================================================

theorem length_dropWhile_le {α : Type} (p : α → Bool) (s : List α) :
    (s.dropWhile p).length ≤ s.length := by
  induction s with
  | nil => simp
  | cons a t ih =>
    rw [List.dropWhile_cons]
    by_cases hp : p a = true
    · rw [if_pos hp]; exact Nat.le_trans ih (Nat.le_succ _)
    · rw [if_neg hp]

theorem dropWhile_eq_self_of_length {α : Type} {p : α → Bool} {s : List α}
    (h : (s.dropWhile p).length = s.length) : s.dropWhile p = s := by
  cases s with
  | nil => rfl
  | cons a t =>
    rw [List.dropWhile_cons] at h ⊢
    by_cases hp : p a = true
    · rw [if_pos hp] at h
      have := length_dropWhile_le p t
      simp only [List.length_cons] at h
      omega
    · rw [if_neg hp]

theorem dropWhile_head_false {α : Type} {p : α → Bool} {a : α} {t : List α}
    (h : List.dropWhile p (a :: t) = a :: t) : p a = false := by
  by_cases hp : p a = true
  · rw [List.dropWhile_cons, if_pos hp] at h
    have h1 := length_dropWhile_le p t
    have h2 := congrArg List.length h
    simp only [List.length_cons] at h2
    omega
  · exact Bool.eq_false_iff.mpr hp

theorem stripLeft_length_le (s : Str) : (stripLeft s).length ≤ s.length :=
  length_dropWhile_le _ _

theorem stripRight_length_le (s : Str) : (stripRight s).length ≤ s.length := by
  unfold stripRight
  rw [List.length_reverse]
  have := length_dropWhile_le isSpaceCh s.reverse
  simpa using this

theorem stripLeft_eq_self_of_pyStrip {s : Str} (h : pyStrip s = s) : stripLeft s = s := by
  have h1 : (pyStrip s).length ≤ (stripLeft s).length := stripRight_length_le (stripLeft s)
  rw [h] at h1
  exact dropWhile_eq_self_of_length (Nat.le_antisymm (stripLeft_length_le s) h1)

theorem stripRight_eq_self_of_pyStrip {s : Str} (h : pyStrip s = s) : stripRight s = s := by
  have hL := stripLeft_eq_self_of_pyStrip h
  calc stripRight s = stripRight (stripLeft s) := by rw [hL]
    _ = s := h

theorem stripLeft_cons_of_not {a : Char} {t : Str} (h : isSpaceCh a = false) :
    stripLeft (a :: t) = a :: t := by
  unfold stripLeft
  rw [List.dropWhile_cons, if_neg (by simp [h])]

theorem stripLeft_append_of_ne {xs ys : Str} (h : stripLeft xs = xs) (hne : xs ≠ []) :
    stripLeft (xs ++ ys) = xs ++ ys := by
  cases xs with
  | nil => exact absurd rfl hne
  | cons a t =>
    have ha : isSpaceCh a = false := dropWhile_head_false h
    rw [List.cons_append]
    exact stripLeft_cons_of_not ha

theorem stripRight_append_of_ne {xs ys : Str} (h : stripRight ys = ys) (hne : ys ≠ []) :
    stripRight (xs ++ ys) = xs ++ ys := by
  have hrev : List.dropWhile isSpaceCh ys.reverse = ys.reverse := by
    have := congrArg List.reverse h
    simpa [stripRight] using this
  cases hy : ys.reverse with
  | nil => exact absurd (by simpa using congrArg List.reverse hy) hne
  | cons b r =>
    rw [hy] at hrev
    have hb : isSpaceCh b = false := dropWhile_head_false hrev
    unfold stripRight
    rw [List.reverse_append, hy, List.cons_append, List.dropWhile_cons,
      if_neg (by simp [hb]), ← List.cons_append, ← hy, List.reverse_append,
      List.reverse_reverse, List.reverse_reverse]

theorem stripLeft_eq_self_of_forall {s : Str} (h : ∀ c ∈ s, isSpaceCh c = false) :
    stripLeft s = s := by
  cases s with
  | nil => rfl
  | cons a t => exact stripLeft_cons_of_not (h a (by simp))

theorem stripRight_eq_self_of_forall {s : Str} (h : ∀ c ∈ s, isSpaceCh c = false) :
    stripRight s = s := by
  unfold stripRight
  cases hy : s.reverse with
  | nil => simpa using congrArg List.reverse hy
  | cons b r =>
    have hb : isSpaceCh b = false := by
      apply h
      have : b ∈ s.reverse := by rw [hy]; simp
      simpa using this
    rw [List.dropWhile_cons, if_neg (by simp [hb]), ← hy, List.reverse_reverse]

theorem pyStrip_eq_self_of_forall {s : Str} (h : ∀ c ∈ s, isSpaceCh c = false) :
    pyStrip s = s := by
  unfold pyStrip
  rw [stripLeft_eq_self_of_forall h, stripRight_eq_self_of_forall h]

theorem mem_pyStrip_of_not_space {c : Char} {s : Str} (hc : c ∈ s)
    (hns : isSpaceCh c = false) : c ∈ pyStrip s := by
  have hmem : ∀ t : Str, c ∈ t → c ∈ List.dropWhile isSpaceCh t := by
    intro t ht
    have := List.takeWhile_append_dropWhile isSpaceCh t
    rcases (List.mem_append.mp (by rw [this]; exact ht)) with h1 | h1
    · have := List.mem_takeWhile_imp h1
      rw [hns] at this
      exact absurd this (by simp)
    · exact h1
  unfold pyStrip stripRight stripLeft
  rw [List.mem_reverse]
  exact hmem _ (by rw [List.mem_reverse]; exact hmem _ hc)

theorem pyStrip_ne_nil_of_mem {c : Char} {s : Str} (hc : c ∈ s)
    (hns : isSpaceCh c = false) : pyStrip s ≠ [] :=
  List.ne_nil_of_mem (mem_pyStrip_of_not_space hc hns)

-- Appending a trailing space does not change the stripped string.
theorem pyStrip_append_space (s : Str) : pyStrip (s ++ [' ']) = pyStrip s := by
  unfold pyStrip stripRight
  have hL : stripLeft (s ++ [' ']) = stripLeft s ++ [' '] ∨
      (stripLeft (s ++ [' ']) = stripLeft s ∧ stripLeft s = []) := by
    unfold stripLeft
    induction s with
    | nil => right; exact ⟨by decide, rfl⟩
    | cons a t ih =>
      by_cases hp : isSpaceCh a = true
      · simpa [List.dropWhile_cons, hp] using ih
      · left; simp [List.dropWhile_cons, hp]
  rcases hL with hL | ⟨hL, hnil⟩
  · rw [hL, List.reverse_append]
    simp [List.dropWhile_cons, isSpaceCh]
  · rw [hL, hnil]

theorem containsCh_append {c : Char} {xs ys : Str} :
    containsCh c (xs ++ ys) = (containsCh c xs || containsCh c ys) := by
  simp [containsCh]

theorem containsCh_eq_false_iff {c : Char} {s : Str} :
    containsCh c s = false ↔ c ∉ s := by
  constructor
  · intro h hc
    have : containsCh c s = true := by
      simp only [containsCh, List.any_eq_true]
      exact ⟨c, hc, by simp⟩
    rw [h] at this
    exact absurd this (by simp)
  · intro h
    by_contra hb
    have : containsCh c s = true := by
      cases hcs : containsCh c s
      · exact absurd hcs hb
      · rfl
    simp only [containsCh, List.any_eq_true] at this
    obtain ⟨d, hd, hdc⟩ := this
    have : d = c := by simpa using hdc
    exact h (this ▸ hd)

theorem splitOnChar_of_not_mem {c : Char} {s : Str} (h : containsCh c s = false) :
    splitOnChar c s = [s] := by
  induction s with
  | nil => rfl
  | cons a t ih =>
    have hac : (a = c) = False := by
      rw [containsCh_eq_false_iff] at h
      simp only [eq_iff_iff, iff_false]
      intro hac
      exact h (hac ▸ List.mem_cons_self a t)
    have ht : containsCh c t = false := by
      rw [containsCh_eq_false_iff] at h ⊢
      intro hmem
      exact h (List.mem_cons_of_mem a hmem)
    simp only [splitOnChar, ih ht, hac, if_false]
    rfl

theorem splitOnChar_append_cons {c : Char} {xs ys : Str} (h : containsCh c xs = false) :
    splitOnChar c (xs ++ c :: ys) = xs :: splitOnChar c ys := by
  induction xs with
  | nil => simp [splitOnChar]
  | cons a t ih =>
    have hac : (a = c) = False := by
      rw [containsCh_eq_false_iff] at h
      simp only [eq_iff_iff, iff_false]
      intro hac
      exact h (hac ▸ List.mem_cons_self a t)
    have ht : containsCh c t = false := by
      rw [containsCh_eq_false_iff] at h ⊢
      intro hmem
      exact h (List.mem_cons_of_mem a hmem)
    simp only [List.cons_append, splitOnChar, List.append_eq, hac, if_false]
    rw [ih ht]
    rfl

theorem splitOnChar_joinLines {ls : List Str} (hne : ls ≠ [])
    (h : ∀ l ∈ ls, containsCh nlChar l = false) :
    splitOnChar nlChar (joinLines ls ++ [nlChar]) = ls ++ [[]] := by
  induction ls with
  | nil => exact absurd rfl hne
  | cons l rest ih =>
    cases rest with
    | nil =>
      have hl := h l (by simp)
      show splitOnChar nlChar (l ++ nlChar :: []) = [l, []]
      rw [splitOnChar_append_cons hl]
      rfl
    | cons l2 rest2 =>
      have hl := h l (by simp)
      have hrest : joinLines (l :: l2 :: rest2) ++ [nlChar]
          = l ++ nlChar :: (joinLines (l2 :: rest2) ++ [nlChar]) := by
        show (l ++ nlChar :: joinLines (l2 :: rest2)) ++ [nlChar] = _
        simp
      rw [hrest, splitOnChar_append_cons hl,
        ih (by simp) (fun x hx => h x (List.mem_cons_of_mem l hx))]
      rfl

theorem breakAtChar_append {c : Char} {xs ys : Str} (h : containsCh c xs = false) :
    breakAtChar c (xs ++ c :: ys) = some (xs, ys) := by
  induction xs with
  | nil => simp [breakAtChar]
  | cons a t ih =>
    have hac : (a = c) = False := by
      rw [containsCh_eq_false_iff] at h
      simp only [eq_iff_iff, iff_false]
      intro hac
      exact h (hac ▸ List.mem_cons_self a t)
    have ht : containsCh c t = false := by
      rw [containsCh_eq_false_iff] at h ⊢
      intro hmem
      exact h (List.mem_cons_of_mem a hmem)
    simp only [List.cons_append, breakAtChar, List.append_eq, hac, if_false]
    rw [ih ht]
    rfl

-- Facts about digit strings and decimal rendering.

theorem isDigitCh_digitChar {d : Nat} (h : d < 10) : isDigitCh (digitChar d) = true := by
  interval_cases d <;> decide

theorem digitToNat_digitChar {d : Nat} (h : d < 10) : digitToNat (digitChar d) = d := by
  interval_cases d <;> decide

theorem strToNatCore_append_digit (xs : Str) (c : Char) :
    strToNatCore (xs ++ [c]) = 10 * strToNatCore xs + digitToNat c := by
  unfold strToNatCore
  rw [List.foldl_append]
  rfl

theorem natToStrAux_all_digits {fuel n : Nat} (h : n < fuel) :
    ∀ c ∈ natToStrAux fuel n, isDigitCh c = true := by
  induction fuel generalizing n with
  | zero => omega
  | succ fuel ih =>
    intro c hc
    unfold natToStrAux at hc
    by_cases hn : n < 10
    · rw [if_pos hn] at hc
      simp only [List.mem_singleton] at hc
      exact hc ▸ isDigitCh_digitChar hn
    · rw [if_neg hn] at hc
      rcases List.mem_append.mp hc with h1 | h1
      · have hdiv : n / 10 < fuel := by
          have h1 : n / 10 < n := Nat.div_lt_self (by omega) (by omega)
          omega
        exact ih hdiv c h1
      · simp only [List.mem_singleton] at h1
        exact h1 ▸ isDigitCh_digitChar (Nat.mod_lt _ (by omega))

theorem natToStrAux_ne_nil {fuel n : Nat} (h : n < fuel) : natToStrAux fuel n ≠ [] := by
  cases fuel with
  | zero => omega
  | succ fuel =>
    unfold natToStrAux
    by_cases hn : n < 10
    · rw [if_pos hn]; simp
    · rw [if_neg hn]; simp

theorem natToStrAux_val {fuel n : Nat} (h : n < fuel) :
    strToNatCore (natToStrAux fuel n) = n := by
  induction fuel generalizing n with
  | zero => omega
  | succ fuel ih =>
    unfold natToStrAux
    by_cases hn : n < 10
    · rw [if_pos hn]
      show strToNatCore ([] ++ [digitChar n]) = n
      rw [strToNatCore_append_digit, digitToNat_digitChar hn]
      simp [strToNatCore]
    · rw [if_neg hn]
      have hdiv : n / 10 < fuel := by
        have h1 : n / 10 < n := Nat.div_lt_self (by omega) (by omega)
        omega
      rw [strToNatCore_append_digit, ih hdiv, digitToNat_digitChar (Nat.mod_lt _ (by omega))]
      omega

theorem natToStr_all_digits (n : Nat) : ∀ c ∈ natToStr n, isDigitCh c = true :=
  natToStrAux_all_digits (Nat.lt_succ_self n)

theorem natToStr_ne_nil (n : Nat) : natToStr n ≠ [] :=
  natToStrAux_ne_nil (Nat.lt_succ_self n)

theorem natToStr_val (n : Nat) : strToNatCore (natToStr n) = n :=
  natToStrAux_val (Nat.lt_succ_self n)

theorem pyIsDigit_natToStr (n : Nat) : pyIsDigit (natToStr n) = true := by
  unfold pyIsDigit
  rw [List.all_eq_true.mpr (natToStr_all_digits n)]
  cases hs : natToStr n with
  | nil => exact absurd hs (natToStr_ne_nil n)
  | cons a t => simp

-- A decimal digit is none of the special characters the parsers react to.
theorem isDigitCh_not_space {c : Char} (h : isDigitCh c = true) : isSpaceCh c = false := by
  cases hs : isSpaceCh c
  · rfl
  · exfalso
    unfold isSpaceCh at hs
    rcases Bool.or_eq_true_iff.mp hs with h1 | h1
    rotate_left
    · rw [show c = '\x0c' from by simpa using h1] at h
      exact absurd h (by decide)
    rcases Bool.or_eq_true_iff.mp h1 with h2 | h2
    rotate_left
    · rw [show c = '\x0b' from by simpa using h2] at h
      exact absurd h (by decide)
    rcases Bool.or_eq_true_iff.mp h2 with h3 | h3
    rotate_left
    · rw [show c = '\x0d' from by simpa using h3] at h
      exact absurd h (by decide)
    rcases Bool.or_eq_true_iff.mp h3 with h4 | h4
    rotate_left
    · rw [show c = nlChar from by simpa using h4] at h
      exact absurd h (by decide)
    rcases Bool.or_eq_true_iff.mp h4 with h5 | h5
    · rw [show c = ' ' from by simpa using h5] at h
      exact absurd h (by decide)
    · rw [show c = '\t' from by simpa using h5] at h
      exact absurd h (by decide)

theorem isDigitCh_ne {c x : Char} (h : isDigitCh c = true) (hx : isDigitCh x = false) :
    c ≠ x := by
  intro heq
  rw [heq, hx] at h
  exact absurd h (by simp)


-- Facts about the dict model.

theorem hasKey_eq_false_iff {B : Type} {m : List (Str × B)} {k : Str} :
    hasKey m k = false ↔ ∀ e ∈ m, e.1 ≠ k := by
  unfold hasKey
  constructor
  · intro h e he heq
    have hh : m.any (fun e => e.1 = k) = true := List.any_eq_true.mpr ⟨e, he, by simp [heq]⟩
    rw [h] at hh
    exact absurd hh (by simp)
  · intro h
    cases hm : m.any (fun e => e.1 = k)
    · rfl
    · obtain ⟨e, he, heq⟩ := List.any_eq_true.mp hm
      exact absurd (by simpa using heq) (h e he)

theorem dictFind?_eq_none_of_not_hasKey {B : Type} {m : List (Str × B)} {k : Str}
    (h : hasKey m k = false) : dictFind? m k = none := by
  induction m with
  | nil => rfl
  | cons e t ih =>
    have h1 := hasKey_eq_false_iff.mp h
    unfold dictFind?
    rw [if_neg (h1 e (by simp))]
    exact ih (hasKey_eq_false_iff.mpr (fun x hx => h1 x (List.mem_cons_of_mem e hx)))

theorem dictFind?_append_self {B : Type} {m : List (Str × B)} {k : Str} {v : B}
    (h : hasKey m k = false) : dictFind? (m ++ [(k, v)]) k = some v := by
  induction m with
  | nil => simp [dictFind?]
  | cons e t ih =>
    have h1 := hasKey_eq_false_iff.mp h
    rw [List.cons_append]
    unfold dictFind?
    rw [if_neg (h1 e (by simp))]
    exact ih (hasKey_eq_false_iff.mpr (fun x hx => h1 x (List.mem_cons_of_mem e hx)))

theorem dictFind?_append_ne {B : Type} {m : List (Str × B)} {k k2 : Str} {v : B}
    (h : k2 ≠ k) : dictFind? (m ++ [(k2, v)]) k = dictFind? m k := by
  induction m with
  | nil => simp [dictFind?, h]
  | cons e t ih =>
    rw [List.cons_append]
    unfold dictFind?
    by_cases he : e.1 = k
    · rw [if_pos he, if_pos he]
    · rw [if_neg he, if_neg he]
      exact ih

theorem hasKey_append_single {B : Type} {m : List (Str × B)} {k k2 : Str} {v : B} :
    hasKey (m ++ [(k2, v)]) k = (hasKey m k || decide (k2 = k)) := by
  simp [hasKey]

theorem dictInsert_of_not_hasKey {B : Type} {m : List (Str × B)} {k : Str} {v : B}
    (h : hasKey m k = false) : dictInsert m k v = m ++ [(k, v)] := by
  unfold dictInsert
  rw [show m.any (fun e => e.1 = k) = hasKey m k from rfl, h]
  simp

theorem dictFind?_perm {B : Type} {m L : List (Str × B)} (h : m.Perm L)
    (nd : (m.map Prod.fst).Nodup) (k : Str) : dictFind? m k = dictFind? L k := by
  induction h with
  | nil => rfl
  | cons x h ih =>
    rw [List.map_cons, List.nodup_cons] at nd
    unfold dictFind?
    by_cases hx : x.1 = k
    · rw [if_pos hx, if_pos hx]
    · rw [if_neg hx, if_neg hx]
      exact ih nd.2
  | swap x y l =>
    rw [List.map_cons, List.map_cons, List.nodup_cons] at nd
    have hxy : y.1 ≠ x.1 := fun heq => nd.1 (by rw [heq]; exact List.mem_cons_self _ _)
    show dictFind? (y :: x :: l) k = dictFind? (x :: y :: l) k
    unfold dictFind?
    by_cases hy : y.1 = k
    · have hx : ¬ x.1 = k := fun hx => hxy (hy.trans hx.symm)
      rw [if_pos hy, if_neg hx]
      unfold dictFind?
      rw [if_pos hy]
    · rw [if_neg hy]
      by_cases hx : x.1 = k
      · rw [if_pos hx]
        unfold dictFind?
        rw [if_pos hx]
      · rw [if_neg hx]
        unfold dictFind?
        rw [if_neg hy, if_neg hx]
  | trans h1 h2 ih1 ih2 =>
    exact (ih1 nd).trans (ih2 (by rw [← List.Perm.nodup_iff (List.Perm.map Prod.fst h1)]; exact nd))

theorem foldl_dictInsert_fresh {B : Type} (L : List (Str × B)) (acc : List (Str × B))
    (hfresh : ∀ e ∈ L, hasKey acc e.1 = false)
    (hnd : (L.map Prod.fst).Nodup) :
    L.foldl (fun a e => dictInsert a e.1 e.2) acc = acc ++ L := by
  induction L generalizing acc with
  | nil => simp
  | cons e t ih =>
    rw [List.map_cons, List.nodup_cons] at hnd
    have hstep : dictInsert acc e.1 e.2 = acc ++ [(e.1, e.2)] :=
      dictInsert_of_not_hasKey (hfresh e (by simp))
    have hfresh2 : ∀ x ∈ t, hasKey (acc ++ [(e.1, e.2)]) x.1 = false := by
      intro x hx
      rw [hasKey_append_single]
      rw [hfresh x (List.mem_cons_of_mem e hx)]
      simp only [Bool.false_or, decide_eq_false_iff_not]
      intro heq
      exact hnd.1 (heq ▸ List.mem_map_of_mem Prod.fst hx)
    rw [List.foldl_cons, hstep, ih (acc ++ [(e.1, e.2)]) hfresh2 hnd.2]
    simp

theorem insertSorted_perm {B : Type} (x : Str × B) (l : List (Str × B)) :
    (insertSorted x l).Perm (x :: l) := by
  induction l with
  | nil => exact List.Perm.refl _
  | cons y rest ih =>
    unfold insertSorted
    by_cases hle : strLe x.1 y.1 = true
    · rw [if_pos hle]
    · rw [if_neg hle]
      exact (List.Perm.cons y ih).trans (List.Perm.swap x y rest)

theorem sortPairs_perm {B : Type} (m : List (Str × B)) : (sortPairs m).Perm m := by
  induction m with
  | nil => exact List.Perm.refl _
  | cons e t ih =>
    show (insertSorted e (sortPairs t)).Perm (e :: t)
    exact (insertSorted_perm e (sortPairs t)).trans (List.Perm.cons e ih)

theorem renderVal_nonneg {u : Int} (h : 0 ≤ u) :
    renderVal (some u) = natToStr u.toNat := by
  show intToStr u = natToStr u.toNat
  unfold intToStr
  rw [if_neg (by omega)]

theorem renderVal_facts {v : Option Int} (hv : valueOk v) :
    renderVal v ≠ [] ∧ (∀ c ∈ renderVal v, isSpaceCh c = false) ∧
      containsCh nlChar (renderVal v) = false ∧
      containsCh dquoteChar (renderVal v) = false := by
  cases v with
  | none =>
    refine ⟨by decide, ?_, by decide, by decide⟩
    intro c hc
    have hall : (renderVal none).all (fun c => !(isSpaceCh c)) = true := by decide
    have := List.all_eq_true.mp hall c hc
    simpa using this
  | some u =>
    have hu : 0 ≤ u := hv u rfl
    rw [renderVal_nonneg hu]
    refine ⟨natToStr_ne_nil _, ?_, ?_, ?_⟩
    · intro c hc
      exact isDigitCh_not_space (natToStr_all_digits _ c hc)
    · rw [containsCh_eq_false_iff]
      intro hmem
      exact isDigitCh_ne (natToStr_all_digits _ _ hmem) (by decide) rfl
    · rw [containsCh_eq_false_iff]
      intro hmem
      exact isDigitCh_ne (natToStr_all_digits _ _ hmem) (by decide) rfl

theorem mkPairLine_eq (k : Str) (v : Option Int) :
    mkPairLine (k, v) = k ++ ':' :: ' ' :: renderVal v := by
  unfold mkPairLine
  simp [strOf, String.data]

theorem mkPairLine_not_nl {k : Str} {v : Option Int} (hk : goodKey k) (hv : valueOk v) :
    containsCh nlChar (mkPairLine (k, v)) = false := by
  rw [mkPairLine_eq, containsCh_eq_false_iff]
  intro hmem
  rcases List.mem_append.mp hmem with h1 | h1
  · exact absurd h1 (containsCh_eq_false_iff.mp hk.2.2.1)
  · rcases List.mem_cons.mp h1 with h2 | h2
    · exact absurd h2 (by decide)
    · rcases List.mem_cons.mp h2 with h3 | h3
      · exact absurd h3 (by decide)
      · exact absurd h3 (containsCh_eq_false_iff.mp (renderVal_facts hv).2.2.1)

theorem pyStrip_mkPairLine {k : Str} {v : Option Int} (hk : goodKey k) (hv : valueOk v) :
    pyStrip (mkPairLine (k, v)) = mkPairLine (k, v) := by
  obtain ⟨hrne, hrns, _, _⟩ := renderVal_facts hv
  have hsr : stripRight (renderVal v) = renderVal v := stripRight_eq_self_of_forall hrns
  rw [mkPairLine_eq]
  unfold pyStrip
  have hleft : stripLeft (k ++ ':' :: ' ' :: renderVal v) = k ++ ':' :: ' ' :: renderVal v := by
    cases k with
    | nil => exact stripLeft_cons_of_not (by decide)
    | cons a t =>
      rw [List.cons_append]
      exact stripLeft_cons_of_not
        (dropWhile_head_false (stripLeft_eq_self_of_pyStrip hk.1))
  rw [hleft]
  rw [show k ++ ':' :: ' ' :: renderVal v = (k ++ [':', ' ']) ++ renderVal v from by simp]
  rw [stripRight_append_of_ne hsr hrne]

theorem mkPairLine_parse {k : Str} {v : Option Int} (hk : goodKey k) :
    breakAtChar ':' (mkPairLine (k, v)) = some (k, ' ' :: renderVal v) := by
  rw [mkPairLine_eq]
  exact breakAtChar_append hk.2.1

theorem pyStrip_space_renderVal {v : Option Int} (hv : valueOk v) :
    pyStrip (' ' :: renderVal v) = renderVal v := by
  obtain ⟨hrne, hrns, _, _⟩ := renderVal_facts hv
  unfold pyStrip
  have h1 : stripLeft (' ' :: renderVal v) = stripLeft (renderVal v) := by
    unfold stripLeft
    rw [List.dropWhile_cons, if_pos (by decide)]
  rw [h1, stripLeft_eq_self_of_forall hrns, stripRight_eq_self_of_forall hrns]

theorem stripChar_eq_self {c : Char} {s : Str} (h : containsCh c s = false) :
    stripChar c s = s := by
  have hx : ∀ t : Str, (∀ d ∈ t, ¬ d = c) → t.dropWhile (fun d => d = c) = t := by
    intro t ht
    cases t with
    | nil => rfl
    | cons a r =>
      rw [List.dropWhile_cons, if_neg (by simp [ht a (by simp)])]
  have hmem := containsCh_eq_false_iff.mp h
  unfold stripChar
  rw [hx s (fun d hd hde => hmem (hde ▸ hd))]
  rw [hx s.reverse (fun d hd hde => hmem (hde ▸ (List.mem_reverse.mp hd)))]
  exact List.reverse_reverse s

theorem stripChar_renderVal {v : Option Int} (hv : valueOk v) :
    stripChar dquoteChar (renderVal v) = renderVal v :=
  stripChar_eq_self (renderVal_facts hv).2.2.2

-- Classification of a rendered value token.
theorem renderVal_none_nullish :
    (renderVal none).isEmpty = true ∨ renderVal none = strOf "null" ∨ renderVal none = ['~'] := by
  right; left; rfl

theorem renderVal_some_digits {u : Int} (h : 0 ≤ u) :
    pyIsDigit (renderVal (some u)) = true := by
  rw [renderVal_nonneg h]
  exact pyIsDigit_natToStr _

theorem renderVal_some_not_nullish {u : Int} (h : 0 ≤ u) :
    ¬ ((renderVal (some u)).isEmpty = true ∨ renderVal (some u) = strOf "null" ∨
      renderVal (some u) = ['~']) := by
  rw [renderVal_nonneg h]
  rintro (h1 | h1 | h1)
  · exact natToStr_ne_nil _ (by simpa using h1)
  · have : 'n' ∈ natToStr u.toNat := by rw [h1]; decide
    exact isDigitCh_ne (natToStr_all_digits _ _ this) (by decide) rfl
  · have : '~' ∈ natToStr u.toNat := by rw [h1]; simp
    exact isDigitCh_ne (natToStr_all_digits _ _ this) (by decide) rfl

theorem renderVal_parse_back {v : Option Int} (hv : valueOk v) :
    (if (renderVal v).isEmpty = true ∨ renderVal v = strOf "null" ∨ renderVal v = ['~']
      then (none : Option Int)
      else some (Int.ofNat (strToNatCore (renderVal v)))) = v := by
  cases v with
  | none => rfl
  | some u =>
    have hu : 0 ≤ u := hv u rfl
    rw [if_neg (renderVal_some_not_nullish hu), renderVal_nonneg hu, natToStr_val]
    congr 1
    rw [show Int.ofNat u.toNat = (u.toNat : Int) from rfl]
    exact Int.toNat_of_nonneg hu

-- ===================================================================
-- Round-trip of the Mapping Store: parsing one written line, then a
-- whole written file, through both parser paths.
-- ===================================================================

theorem mkPairLine_isEmpty_false (k : Str) (v : Option Int) :
    (mkPairLine (k, v)).isEmpty = false := by
  rw [mkPairLine_eq]
  cases k <;> rfl

theorem mkPairLine_colon (k : Str) (v : Option Int) :
    containsCh ':' (mkPairLine (k, v)) = true := by
  rw [mkPairLine_eq]
  simp [containsCh]

theorem mkPairLine_hash {k : Str} (v : Option Int) (hk : goodKey k) :
    headIsHash (mkPairLine (k, v)) = false := by
  rw [mkPairLine_eq]
  cases k with
  | nil => rfl
  | cons a t =>
    have h := hk.2.2.2
    simpa [headIsHash] using h

theorem mkPairLine_ne_markers {k : Str} {v : Option Int} :
    ¬ (mkPairLine (k, v) = emptyMapMarker ∨ mkPairLine (k, v) = emptyListMarker) := by
  have hcolon := mkPairLine_colon k v
  rintro (h | h) <;> rw [h] at hcolon <;> exact absurd hcolon (by decide)

theorem loadSimpleLines_entry {k : Str} {v : Option Int} {rest : List Str} {acc : CMap}
    (hk : goodKey k) (hv : valueOk v) :
    loadSimpleLines (mkPairLine (k, v) :: rest) acc
      = loadSimpleLines rest (dictInsert acc k v) := by
  have hline := pyStrip_mkPairLine hk hv
  simp only [loadSimpleLines, hline]
  rw [if_neg (by rw [mkPairLine_isEmpty_false]; simp),
    if_neg (by rw [mkPairLine_hash v hk]; simp),
    if_neg mkPairLine_ne_markers,
    if_neg (by rw [mkPairLine_colon]; simp),
    mkPairLine_parse hk]
  simp only [hk.1, pyStrip_space_renderVal hv, stripChar_renderVal hv]
  cases v with
  | none =>
    rw [if_pos (by right; left; rfl)]
  | some u =>
    have hu : 0 ≤ u := hv u rfl
    rw [if_neg (renderVal_some_not_nullish hu), if_pos (renderVal_some_digits hu)]
    rw [renderVal_nonneg hu, natToStr_val]
    rw [show Int.ofNat u.toNat = (u.toNat : Int) from rfl, Int.toNat_of_nonneg hu]

theorem loadSimpleLines_entries (L : CMap) (acc : CMap)
    (hk : ∀ e ∈ L, goodKey e.1) (hv : ∀ e ∈ L, valueOk e.2) :
    loadSimpleLines (L.map mkPairLine ++ [[]]) acc
      = .ok (L.foldl (fun a e => dictInsert a e.1 e.2) acc) := by
  induction L generalizing acc with
  | nil => rfl
  | cons e t ih =>
    rw [List.map_cons, List.cons_append, loadSimpleLines_entry (hk e (by simp)) (hv e (by simp)),
      ih (dictInsert acc e.1 e.2) (fun x hx => hk x (List.mem_cons_of_mem e hx))
        (fun x hx => hv x (List.mem_cons_of_mem e hx))]
    rfl

theorem yamlParseLines_entry {k : Str} {v : Option Int} {rest : List Str}
    {acc : List (Str × YVal)} (hk : goodKey k) (hv : valueOk v) :
    yamlParseLines (mkPairLine (k, v) :: rest) acc
      = yamlParseLines rest (dictInsert acc k (yvalOfVal v)) := by
  have hline := pyStrip_mkPairLine hk hv
  simp only [yamlParseLines, hline]
  rw [if_neg (by rw [mkPairLine_isEmpty_false]; simp),
    if_neg (by rw [mkPairLine_hash v hk]; simp),
    if_neg (fun h => mkPairLine_ne_markers (Or.inl h)),
    if_neg (fun h => mkPairLine_ne_markers (Or.inr h)),
    mkPairLine_parse hk]
  simp only [hk.1, pyStrip_space_renderVal hv]
  cases v with
  | none =>
    rw [if_pos (by right; left; rfl)]
    rfl
  | some u =>
    have hu : 0 ≤ u := hv u rfl
    rw [if_neg (renderVal_some_not_nullish hu), if_pos (renderVal_some_digits hu)]
    rw [renderVal_nonneg hu, natToStr_val]
    rw [show Int.ofNat u.toNat = (u.toNat : Int) from rfl, Int.toNat_of_nonneg hu]
    rfl

theorem yamlParseLines_entries (L : CMap) (acc : List (Str × YVal))
    (hk : ∀ e ∈ L, goodKey e.1) (hv : ∀ e ∈ L, valueOk e.2) :
    yamlParseLines (L.map mkPairLine ++ [[]]) acc
      = some ((L.map toYPair).foldl (fun a e => dictInsert a e.1 e.2) acc) := by
  induction L generalizing acc with
  | nil => rfl
  | cons e t ih =>
    rw [List.map_cons, List.cons_append, yamlParseLines_entry (hk e (by simp)) (hv e (by simp)),
      ih (dictInsert acc e.1 (yvalOfVal e.2)) (fun x hx => hk x (List.mem_cons_of_mem e hx))
        (fun x hx => hv x (List.mem_cons_of_mem e hx))]
    rfl

theorem coerceData_mapped (L : CMap) (acc : CMap) :
    coerceData (L.map toYPair) acc
      = .ok (L.foldl (fun a e => dictInsert a e.1 e.2) acc) := by
  induction L generalizing acc with
  | nil => rfl
  | cons e t ih =>
    cases hv : e.2 with
    | none =>
      show coerceData ((e.1, yvalOfVal e.2) :: t.map toYPair) acc = _
      rw [hv]
      show coerceData (t.map toYPair) (dictInsert acc e.1 none) = _
      rw [ih]
      rw [List.foldl_cons, hv]
    | some u =>
      show coerceData ((e.1, yvalOfVal e.2) :: t.map toYPair) acc = _
      rw [hv]
      show coerceData (t.map toYPair) (dictInsert acc e.1 (some u)) = _
      rw [ih]
      rw [List.foldl_cons, hv]

theorem mem_joinLines {x : Char} {l : Str} {ls : List Str} (hl : l ∈ ls) (hx : x ∈ l) :
    x ∈ joinLines ls := by
  induction ls with
  | nil => cases hl
  | cons a rest ih =>
    cases rest with
    | nil =>
      rcases List.mem_cons.mp hl with h | h
      · exact h ▸ hx
      · cases h
    | cons b rest2 =>
      show x ∈ a ++ nlChar :: joinLines (b :: rest2)
      rcases List.mem_cons.mp hl with h | h
      · exact List.mem_append.mpr (Or.inl (h ▸ hx))
      · exact List.mem_append.mpr (Or.inr (List.mem_cons_of_mem _ (ih h)))

theorem colon_mem_mkPairLine (e : Str × Option Int) : ':' ∈ mkPairLine e := by
  rw [show e = (e.1, e.2) from rfl, mkPairLine_eq]
  simp

theorem load_write_roundtrip (m : CMap)
    (hk : ∀ e ∈ m, goodKey e.1) (hv : ∀ e ∈ m, valueOk e.2)
    (hnd : (m.map Prod.fst).Nodup) (b : Bool) :
    load_container_map b (write_yaml m) = .ok (sortPairs m) := by
  cases m with
  | nil => cases b <;> rfl
  | cons e0 t0 =>
    have hperm := sortPairs_perm (e0 :: t0)
    have hkL : ∀ e ∈ sortPairs (e0 :: t0), goodKey e.1 :=
      fun e he => hk e (hperm.mem_iff.mp he)
    have hvL : ∀ e ∈ sortPairs (e0 :: t0), valueOk e.2 :=
      fun e he => hv e (hperm.mem_iff.mp he)
    have hndL : ((sortPairs (e0 :: t0)).map Prod.fst).Nodup :=
      ((hperm.map Prod.fst).nodup_iff).mpr hnd
    have hLne : sortPairs (e0 :: t0) ≠ [] := by
      intro h
      have h2 := hperm
      rw [h] at h2
      exact absurd h2.symm.eq_nil (by simp)
    have hlinesne : (sortPairs (e0 :: t0)).map mkPairLine ≠ [] := by
      simpa using hLne
    have hwrite : write_yaml (e0 :: t0)
        = joinLines ((sortPairs (e0 :: t0)).map mkPairLine) ++ [nlChar] := by
      show joinLines (if ((sortPairs (e0 :: t0)).map mkPairLine).isEmpty = true
          then [emptyMapMarker] else (sortPairs (e0 :: t0)).map mkPairLine) ++ [nlChar] = _
      rw [if_neg (by simpa [List.isEmpty_iff] using hlinesne)]
    have hnl : ∀ l ∈ (sortPairs (e0 :: t0)).map mkPairLine, containsCh nlChar l = false := by
      intro l hl
      obtain ⟨e, he, rfl⟩ := List.mem_map.mp hl
      rw [show e = (e.1, e.2) from rfl]
      exact mkPairLine_not_nl (hkL e he) (hvL e he)
    have hsplit : splitOnChar nlChar (write_yaml (e0 :: t0))
        = (sortPairs (e0 :: t0)).map mkPairLine ++ [[]] := by
      rw [hwrite]
      exact splitOnChar_joinLines hlinesne hnl
    have hcolonmem : ':' ∈ write_yaml (e0 :: t0) := by
      obtain ⟨e, he⟩ := List.exists_mem_of_ne_nil _ hLne
      have h1 : mkPairLine e ∈ (sortPairs (e0 :: t0)).map mkPairLine :=
        List.mem_map_of_mem mkPairLine he
      rw [hwrite]
      exact List.mem_append.mpr (Or.inl (mem_joinLines h1 (colon_mem_mkPairLine e)))
    have hstrip : (pyStrip (write_yaml (e0 :: t0))).isEmpty = false := by
      have hne := pyStrip_ne_nil_of_mem hcolonmem (by decide)
      cases h : (pyStrip (write_yaml (e0 :: t0))).isEmpty
      · rfl
      · exact absurd (List.isEmpty_iff.mp h) hne
    have hfoldl : (sortPairs (e0 :: t0)).foldl (fun a e => dictInsert a e.1 e.2) []
        = sortPairs (e0 :: t0) := by
      rw [foldl_dictInsert_fresh _ [] (fun e _ => rfl) hndL]
      rfl
    cases b with
    | false =>
      unfold load_container_map
      rw [if_neg (by rw [hstrip]; simp)]
      rw [if_neg (by simp)]
      unfold load_yaml_simple
      rw [hsplit, loadSimpleLines_entries _ _ hkL hvL, hfoldl]
    | true =>
      unfold load_container_map
      rw [if_neg (by rw [hstrip]; simp)]
      rw [if_pos rfl]
      have hyaml : yamlSafeLoad (write_yaml (e0 :: t0))
          = some ((sortPairs (e0 :: t0)).map toYPair) := by
        unfold yamlSafeLoad
        rw [hsplit, yamlParseLines_entries _ _ hkL hvL]
        congr 1
        have hndY : (((sortPairs (e0 :: t0)).map toYPair).map Prod.fst).Nodup := by
          rw [List.map_map]
          rw [show Prod.fst ∘ toYPair = (Prod.fst : Str × Option Int → Str) from rfl]
          exact hndL
        rw [foldl_dictInsert_fresh _ [] (fun e _ => rfl) hndY]
        rfl
      rw [hyaml]
      show coerceData ((sortPairs (e0 :: t0)).map toYPair) [] = _
      rw [coerceData_mapped, hfoldl]

-- ===================================================================
-- Parsing a raw `name: value` line with an arbitrary value token.
-- ===================================================================

theorem mkRawLine_eq (k val : Str) : mkRawLine k val = k ++ ':' :: ' ' :: val := by
  unfold mkRawLine
  simp [strOf, String.data]

theorem mkRawLine_isEmpty_false (k val : Str) : (mkRawLine k val).isEmpty = false := by
  rw [mkRawLine_eq]
  cases k <;> rfl

theorem mkRawLine_colon (k val : Str) : containsCh ':' (mkRawLine k val) = true := by
  rw [mkRawLine_eq]
  simp [containsCh]

theorem mkRawLine_hash {k : Str} (val : Str) (hk : goodKey k) :
    headIsHash (mkRawLine k val) = false := by
  rw [mkRawLine_eq]
  cases k with
  | nil => rfl
  | cons a t =>
    have h := hk.2.2.2
    simpa [headIsHash] using h

theorem mkRawLine_ne_markers {k val : Str} :
    ¬ (mkRawLine k val = emptyMapMarker ∨ mkRawLine k val = emptyListMarker) := by
  have hcolon := mkRawLine_colon k val
  rintro (h | h) <;> rw [h] at hcolon <;> exact absurd hcolon (by decide)

theorem pyStrip_mkRawLine {k val : Str} (hk : goodKey k) (hval : pyStrip val = val)
    (hvne : val ≠ []) :
    pyStrip (mkRawLine k val) = mkRawLine k val := by
  rw [mkRawLine_eq]
  unfold pyStrip
  have hleft : stripLeft (k ++ ':' :: ' ' :: val) = k ++ ':' :: ' ' :: val := by
    cases k with
    | nil => exact stripLeft_cons_of_not (by decide)
    | cons a t =>
      rw [List.cons_append]
      exact stripLeft_cons_of_not
        (dropWhile_head_false (stripLeft_eq_self_of_pyStrip hk.1))
  rw [hleft]
  rw [show k ++ ':' :: ' ' :: val = (k ++ [':', ' ']) ++ val from by simp]
  rw [stripRight_append_of_ne (stripRight_eq_self_of_pyStrip hval) hvne]

theorem mkRawLine_parse {k : Str} (val : Str) (hk : goodKey k) :
    breakAtChar ':' (mkRawLine k val) = some (k, ' ' :: val) := by
  rw [mkRawLine_eq]
  exact breakAtChar_append hk.2.1

theorem pyStrip_space_val {val : Str} (hval : pyStrip val = val) :
    pyStrip (' ' :: val) = val := by
  unfold pyStrip
  have h1 : stripLeft (' ' :: val) = stripLeft val := by
    unfold stripLeft
    rw [List.dropWhile_cons, if_pos (by decide)]
  rw [h1, stripLeft_eq_self_of_pyStrip hval, stripRight_eq_self_of_pyStrip hval]

theorem mkRawLine_not_nl {k val : Str} (hk : goodKey k)
    (hnl : containsCh nlChar val = false) :
    containsCh nlChar (mkRawLine k val) = false := by
  rw [mkRawLine_eq, containsCh_eq_false_iff]
  intro hmem
  rcases List.mem_append.mp hmem with h1 | h1
  · exact absurd h1 (containsCh_eq_false_iff.mp hk.2.2.1)
  · rcases List.mem_cons.mp h1 with h2 | h2
    · exact absurd h2 (by decide)
    · rcases List.mem_cons.mp h2 with h3 | h3
      · exact absurd h3 (by decide)
      · exact absurd h3 (containsCh_eq_false_iff.mp hnl)

theorem loadSimpleLines_raw_entry {k val : Str} {rest : List Str} {acc : CMap}
    (hk : goodKey k) (hval : pyStrip val = val) (hvne : val ≠ [])
    (hq : containsCh dquoteChar val = false) :
    loadSimpleLines (mkRawLine k val :: rest) acc
      = (if val.isEmpty = true ∨ val = strOf "null" ∨ val = ['~'] then
          loadSimpleLines rest (dictInsert acc k none)
        else if pyIsDigit val = true then
          loadSimpleLines rest (dictInsert acc k (some (Int.ofNat (strToNatCore val))))
        else .error (.unsupportedValue k val)) := by
  have hline := pyStrip_mkRawLine hk hval hvne
  simp only [loadSimpleLines, hline]
  rw [if_neg (by rw [mkRawLine_isEmpty_false]; simp),
    if_neg (by rw [mkRawLine_hash val hk]; simp),
    if_neg mkRawLine_ne_markers,
    if_neg (by rw [mkRawLine_colon]; simp),
    mkRawLine_parse val hk]
  simp only [hk.1, pyStrip_space_val hval, stripChar_eq_self hq]

theorem yamlParseLines_raw_entry {k val : Str} {rest : List Str} {acc : List (Str × YVal)}
    (hk : goodKey k) (hval : pyStrip val = val) (hvne : val ≠ []) :
    yamlParseLines (mkRawLine k val :: rest) acc
      = yamlParseLines rest (dictInsert acc k
          (if val.isEmpty = true ∨ val = strOf "null" ∨ val = ['~'] then YVal.ynull
          else if pyIsDigit val = true then YVal.yint (Int.ofNat (strToNatCore val))
          else YVal.ystr val)) := by
  have hline := pyStrip_mkRawLine hk hval hvne
  simp only [yamlParseLines, hline]
  rw [if_neg (by rw [mkRawLine_isEmpty_false]; simp),
    if_neg (by rw [mkRawLine_hash val hk]; simp),
    if_neg (fun h => mkRawLine_ne_markers (Or.inl h)),
    if_neg (fun h => mkRawLine_ne_markers (Or.inr h)),
    mkRawLine_parse val hk]
  simp only [hk.1, pyStrip_space_val hval]

theorem load_single_raw (k val : Str) (hk : goodKey k) (hval : pyStrip val = val)
    (hnl : containsCh nlChar val = false) (hq : containsCh dquoteChar val = false)
    (hvne : val ≠ []) (b : Bool) :
    load_container_map b (mkRawLine k val)
      = (if val.isEmpty = true ∨ val = strOf "null" ∨ val = ['~'] then
          .ok [(k, none)]
        else if pyIsDigit val = true then
          .ok [(k, some (Int.ofNat (strToNatCore val)))]
        else .error (.unsupportedValue k val)) := by
  have hcolonmem : ':' ∈ mkRawLine k val := by
    rw [mkRawLine_eq]
    simp
  have hstrip : (pyStrip (mkRawLine k val)).isEmpty = false := by
    cases h : (pyStrip (mkRawLine k val)).isEmpty
    · rfl
    · exact absurd (List.isEmpty_iff.mp h) (pyStrip_ne_nil_of_mem hcolonmem (by decide))
  have hsplit : splitOnChar nlChar (mkRawLine k val) = [mkRawLine k val] :=
    splitOnChar_of_not_mem (mkRawLine_not_nl hk hnl)
  cases b with
  | false =>
    unfold load_container_map
    rw [if_neg (by rw [hstrip]; simp), if_neg (by simp)]
    unfold load_yaml_simple
    rw [hsplit, loadSimpleLines_raw_entry hk hval hvne hq]
    split_ifs <;> rfl
  | true =>
    unfold load_container_map
    rw [if_neg (by rw [hstrip]; simp), if_pos rfl]
    have hy : yamlSafeLoad (mkRawLine k val)
        = some [(k, if val.isEmpty = true ∨ val = strOf "null" ∨ val = ['~'] then YVal.ynull
            else if pyIsDigit val = true then YVal.yint (Int.ofNat (strToNatCore val))
            else YVal.ystr val)] := by
      unfold yamlSafeLoad
      rw [hsplit, yamlParseLines_raw_entry hk hval hvne]
      rfl
    rw [hy]
    split_ifs with h1 h2
    · rfl
    · rfl
    · show coerceData [(k, YVal.ystr val)] [] = _
      simp only [coerceData]
      rw [if_neg h2]

-- ===================================================================
-- Claim theorems.
-- ===================================================================

/-- Claim C1: for every container entry, an absent container UID passes
through as an absent host UID; a present container UID `u` maps to
`base + u` when the invoking process UID is 0 and to `base + u - 1`
otherwise; in particular base 100000 and UID 1000 give 100999 for a
non-privileged caller and 101000 for a privileged one. -/
theorem c1_compute_host_uids_offset :
    (∀ (m : CMap) (base : Int) (p : Nat) (n : Str),
      dictFind? (compute_host_uids m base p) n
        = (dictFind? m n).map (fun cu => cu.map (fun u =>
            if p = 0 then base + u else base + u - 1)))
    ∧ compute_host_uids [(strOf "app", some 1000)] 100000 1000
        = [(strOf "app", some 100999)]
    ∧ compute_host_uids [(strOf "app", some 1000)] 100000 0
        = [(strOf "app", some 101000)]
    ∧ compute_host_uids [(strOf "app", none)] 100000 1000
        = [(strOf "app", none)] := by
  refine ⟨?_, by decide, by decide, by decide⟩
  intro m base p n
  induction m with
  | nil => rfl
  | cons e t ih =>
    show dictFind? ((e.1, e.2.map _) :: compute_host_uids t base p) n = _
    unfold dictFind?
    by_cases he : e.1 = n
    · rw [if_pos he, if_pos he]
      show some _ = some _
      congr 1
      cases e.2 with
      | none => rfl
      | some u =>
        show some _ = some _
        congr 1
        show (if p ≠ 0 then base + u - 1 else base + u)
          = (if p = 0 then base + u else base + u - 1)
        by_cases hp : p = 0
        · rw [if_neg (by omega : ¬ p ≠ 0), if_pos hp]
        · rw [if_pos hp, if_neg hp]
    · rw [if_neg he, if_neg he]
      exact ih

/-- Claim C2, counterexample: the mapping that sends the container name
`#x` to UID 5 is written as the line `#x: 5`, which both loader paths
treat as a comment, so saving then loading yields the empty mapping
rather than the original one. -/
theorem c2_roundtrip_counterexample :
    load_container_map true (write_yaml [(strOf "#x", some 5)]) = .ok []
    ∧ load_container_map false (write_yaml [(strOf "#x", some 5)]) = .ok []
    ∧ dictFind? [((strOf "#x" : Str), (some 5 : Option Int))] (strOf "#x") = some (some 5)
    ∧ dictFind? ([] : CMap) (strOf "#x") = none :=
  ⟨rfl, rfl, rfl, rfl⟩

/-- Claim C2 (amended): for every mapping with distinct well-formed
container names (unchanged by stripping, free of colons and newlines,
not starting with `#`) and values that are absent or non-negative
integers, saving with `write_yaml` and loading with either parser path
of `load_container_map` yields a mapping identical to the original. -/
theorem c2_save_load_roundtrip (m : CMap)
    (hk : ∀ e ∈ m, goodKey e.1) (hv : ∀ e ∈ m, valueOk e.2)
    (hnd : (m.map Prod.fst).Nodup) :
    (∀ b : Bool, load_container_map b (write_yaml m) = .ok (sortPairs m))
    ∧ (∀ k : Str, dictFind? (sortPairs m) k = dictFind? m k) := by
  constructor
  · intro b
    exact load_write_roundtrip m hk hv hnd b
  · intro k
    exact dictFind?_perm (sortPairs_perm m)
      (((sortPairs_perm m).map Prod.fst).nodup_iff.mpr hnd) k

theorem c2_save_load_roundtrip_witness :
    load_container_map true (write_yaml [(strOf "db", some 7), (strOf "app", none)])
      = .ok (sortPairs ([(strOf "db", some 7), (strOf "app", none)] : CMap))
    ∧ dictFind? (sortPairs ([(strOf "db", some 7), (strOf "app", none)] : CMap)) (strOf "db")
      = dictFind? ([(strOf "db", some 7), (strOf "app", none)] : CMap) (strOf "db") :=
  ⟨(c2_save_load_roundtrip [(strOf "db", some 7), (strOf "app", none)]
      (by decide) (by decide) (by decide)).1 true,
   (c2_save_load_roundtrip [(strOf "db", some 7), (strOf "app", none)]
      (by decide) (by decide) (by decide)).2 (strOf "db")⟩

/-- Claim C3: on every mapping file written by the pipeline's own save
operation (distinct colon-free newline-free non-comment names, values
absent or non-negative), the line-oriented fallback parser path and the
structured-parser path of the Mapping Store load produce identical
in-memory mappings. -/
theorem c3_fallback_structured_equiv (m : CMap)
    (hk : ∀ e ∈ m, goodKey e.1) (hv : ∀ e ∈ m, valueOk e.2)
    (hnd : (m.map Prod.fst).Nodup) :
    load_container_map false (write_yaml m) = load_container_map true (write_yaml m) := by
  rw [load_write_roundtrip m hk hv hnd false, load_write_roundtrip m hk hv hnd true]

theorem c3_fallback_structured_equiv_witness :
    load_container_map false (write_yaml [(strOf "core", some 33), (strOf "nginx", none)])
      = load_container_map true (write_yaml [(strOf "core", some 33), (strOf "nginx", none)]) :=
  c3_fallback_structured_equiv [(strOf "core", some 33), (strOf "nginx", none)]
    (by decide) (by decide) (by decide)

/-- Claim C7: for a value token on a loaded mapping line, a null-like
token yields absence, a purely-numeric token yields its integer value,
and any other non-empty token is a fatal parse error that names the
offending container and the raw value — on both parser paths. -/
theorem c7_value_coercion (k val : Str) (hk : goodKey k)
    (hval : pyStrip val = val) (hnl : containsCh nlChar val = false)
    (hq : containsCh dquoteChar val = false) :
    ((val = strOf "null" ∨ val = ['~']) →
      ∀ b, load_container_map b (mkRawLine k val) = .ok [(k, none)])
    ∧ (pyIsDigit val = true →
      ∀ b, load_container_map b (mkRawLine k val)
        = .ok [(k, some (Int.ofNat (strToNatCore val)))])
    ∧ (val ≠ [] → ¬(val = strOf "null" ∨ val = ['~']) → pyIsDigit val = false →
      ∀ b, load_container_map b (mkRawLine k val)
        = .error (.unsupportedValue k val)) := by
  refine ⟨?_, ?_, ?_⟩
  · intro hnull b
    have hvne : val ≠ [] := by
      rcases hnull with h | h <;> rw [h] <;> decide
    rw [load_single_raw k val hk hval hnl hq hvne b,
      if_pos (Or.inr hnull)]
  · intro hdig b
    have hvempty : val.isEmpty = false := by
      unfold pyIsDigit at hdig
      cases h : val.isEmpty
      · rfl
      · rw [h] at hdig
        exact absurd hdig (by simp)
    have hvne : val ≠ [] := fun h => by
      rw [h] at hvempty
      exact absurd hvempty (by simp)
    have hnotnull : ¬ (val.isEmpty = true ∨ val = strOf "null" ∨ val = ['~']) := by
      rintro (h | h | h)
      · rw [h] at hvempty
        exact absurd hvempty (by simp)
      · rw [h] at hdig
        exact absurd hdig (by decide)
      · rw [h] at hdig
        exact absurd hdig (by decide)
    rw [load_single_raw k val hk hval hnl hq hvne b, if_neg hnotnull, if_pos hdig]
  · intro hvne hnotnull hnotdig b
    have hnotnull2 : ¬ (val.isEmpty = true ∨ val = strOf "null" ∨ val = ['~']) := by
      rintro (h | h | h)
      · exact hvne (List.isEmpty_iff.mp h)
      · exact hnotnull (Or.inl h)
      · exact hnotnull (Or.inr h)
    rw [load_single_raw k val hk hval hnl hq hvne b, if_neg hnotnull2,
      if_neg (by rw [hnotdig]; simp)]

theorem c7_value_coercion_witness :
    load_container_map true (mkRawLine (strOf "app") (strOf "abc"))
      = .error (.unsupportedValue (strOf "app") (strOf "abc")) :=
  (c7_value_coercion (strOf "app") (strOf "abc") (by decide) (by decide)
    (by decide) (by decide)).2.2 (by decide) (by decide) (by decide) true

-- ===================================================================
-- Alias propagation (Definition Scanner).
-- ===================================================================

theorem aliasStep_find_ne (a t : Str) (X : SMap) {k : Str} (h : a ≠ k) :
    dictFind? (aliasStep a t X) k = dictFind? X k := by
  unfold aliasStep
  by_cases hh : hasKey X a = true
  · rw [if_pos hh]
  · rw [if_neg hh]
    exact dictFind?_append_ne h

theorem aliasStep_hasKey_ne (a t : Str) (X : SMap) {k : Str} (h : a ≠ k) :
    hasKey (aliasStep a t X) k = hasKey X k := by
  unfold aliasStep
  by_cases hh : hasKey X a = true
  · rw [if_pos hh]
  · rw [if_neg hh, hasKey_append_single]
    simp [h]

theorem aliasStep_get_ne (a t : Str) (X : SMap) {k : Str} (h : a ≠ k) :
    dictGet (aliasStep a t X) k = dictGet X k := by
  show (dictFind? (aliasStep a t X) k).join = (dictFind? X k).join
  rw [aliasStep_find_ne a t X h]

theorem aliasStep_find_self (a t : Str) (X : SMap) (h : hasKey X a = false) :
    dictFind? (aliasStep a t X) a = some (dictGet X t) := by
  unfold aliasStep
  rw [if_neg (by rw [h]; simp)]
  exact dictFind?_append_self h

theorem aliasStep_get_self (a t : Str) (X : SMap) (h : hasKey X a = false) :
    dictGet (aliasStep a t X) a = dictGet X t := by
  show (dictFind? (aliasStep a t X) a).join = dictGet X t
  rw [aliasStep_find_self a t X h]
  rfl

theorem aliasStep_of_hasKey {a : Str} (t : Str) {X : SMap} (h : hasKey X a = true) :
    aliasStep a t X = X := by
  unfold aliasStep
  rw [if_pos h]

/-- Claim C4: for each pair of the fixed alias table, alias propagation
leaves an already-scanned alias name unchanged, binds a missing alias
name to the value its source name holds at alias-resolution time
(absence when the source is absent or unset), and hence a missing alias
ends up with the same looked-up value as its source. -/
theorem c4_alias_propagation (m : SMap) (a t : Str) (hmem : (a, t) ∈ alias_pairs) :
    (hasKey m a = true → dictFind? (applyAliases m) a = dictFind? m a)
    ∧ (hasKey m a = false → dictFind? (applyAliases m) a = some (dictGet m t))
    ∧ (hasKey m a = false → dictGet (applyAliases m) a = dictGet (applyAliases m) t) := by
  have happ : ∀ X : SMap, applyAliases X =
      aliasStep (strOf "secret/core") (strOf "core")
        (aliasStep (strOf "secret/cert") (strOf "nginx")
          (aliasStep (strOf "database") (strOf "db") X)) := fun X => rfl
  simp only [alias_pairs, List.mem_cons, Prod.mk.injEq] at hmem
  rcases hmem with ⟨rfl, rfl⟩ | ⟨rfl, rfl⟩ | ⟨rfl, rfl⟩ | h4
  · refine ⟨fun hK => ?_, fun hK => ?_, fun hK => ?_⟩
    · rw [happ, aliasStep_find_ne _ _ _ (by decide), aliasStep_find_ne _ _ _ (by decide),
        aliasStep_of_hasKey _ hK]
    · rw [happ, aliasStep_find_ne _ _ _ (by decide), aliasStep_find_ne _ _ _ (by decide),
        aliasStep_find_self _ _ _ hK]
    · rw [happ]
      have hL : dictGet (aliasStep (strOf "secret/core") (strOf "core")
          (aliasStep (strOf "secret/cert") (strOf "nginx")
            (aliasStep (strOf "database") (strOf "db") m))) (strOf "database")
          = dictGet m (strOf "db") := by
        rw [aliasStep_get_ne _ _ _ (by decide), aliasStep_get_ne _ _ _ (by decide),
          aliasStep_get_self _ _ _ hK]
      have hR : dictGet (aliasStep (strOf "secret/core") (strOf "core")
          (aliasStep (strOf "secret/cert") (strOf "nginx")
            (aliasStep (strOf "database") (strOf "db") m))) (strOf "db")
          = dictGet m (strOf "db") := by
        rw [aliasStep_get_ne _ _ _ (by decide), aliasStep_get_ne _ _ _ (by decide),
          aliasStep_get_ne _ _ _ (by decide)]
      rw [hL, hR]
  · refine ⟨fun hK => ?_, fun hK => ?_, fun hK => ?_⟩
    · rw [happ, aliasStep_find_ne _ _ _ (by decide),
        aliasStep_of_hasKey _ (by rw [aliasStep_hasKey_ne _ _ _ (by decide)]; exact hK),
        aliasStep_find_ne _ _ _ (by decide)]
    · rw [happ, aliasStep_find_ne _ _ _ (by decide),
        aliasStep_find_self _ _ _ (by rw [aliasStep_hasKey_ne _ _ _ (by decide)]; exact hK),
        aliasStep_get_ne _ _ _ (by decide)]
    · rw [happ]
      have hL : dictGet (aliasStep (strOf "secret/core") (strOf "core")
          (aliasStep (strOf "secret/cert") (strOf "nginx")
            (aliasStep (strOf "database") (strOf "db") m))) (strOf "secret/cert")
          = dictGet m (strOf "nginx") := by
        rw [aliasStep_get_ne _ _ _ (by decide),
          aliasStep_get_self _ _ _ (by rw [aliasStep_hasKey_ne _ _ _ (by decide)]; exact hK),
          aliasStep_get_ne _ _ _ (by decide)]
      have hR : dictGet (aliasStep (strOf "secret/core") (strOf "core")
          (aliasStep (strOf "secret/cert") (strOf "nginx")
            (aliasStep (strOf "database") (strOf "db") m))) (strOf "nginx")
          = dictGet m (strOf "nginx") := by
        rw [aliasStep_get_ne _ _ _ (by decide), aliasStep_get_ne _ _ _ (by decide),
          aliasStep_get_ne _ _ _ (by decide)]
      rw [hL, hR]
  · refine ⟨fun hK => ?_, fun hK => ?_, fun hK => ?_⟩
    · rw [happ,
        aliasStep_of_hasKey _ (by
          rw [aliasStep_hasKey_ne _ _ _ (by decide), aliasStep_hasKey_ne _ _ _ (by decide)]
          exact hK),
        aliasStep_find_ne _ _ _ (by decide), aliasStep_find_ne _ _ _ (by decide)]
    · rw [happ,
        aliasStep_find_self _ _ _ (by
          rw [aliasStep_hasKey_ne _ _ _ (by decide), aliasStep_hasKey_ne _ _ _ (by decide)]
          exact hK),
        aliasStep_get_ne _ _ _ (by decide), aliasStep_get_ne _ _ _ (by decide)]
    · rw [happ]
      have hL : dictGet (aliasStep (strOf "secret/core") (strOf "core")
          (aliasStep (strOf "secret/cert") (strOf "nginx")
            (aliasStep (strOf "database") (strOf "db") m))) (strOf "secret/core")
          = dictGet m (strOf "core") := by
        rw [aliasStep_get_self _ _ _ (by
            rw [aliasStep_hasKey_ne _ _ _ (by decide), aliasStep_hasKey_ne _ _ _ (by decide)]
            exact hK),
          aliasStep_get_ne _ _ _ (by decide), aliasStep_get_ne _ _ _ (by decide)]
      have hR : dictGet (aliasStep (strOf "secret/core") (strOf "core")
          (aliasStep (strOf "secret/cert") (strOf "nginx")
            (aliasStep (strOf "database") (strOf "db") m))) (strOf "core")
          = dictGet m (strOf "core") := by
        rw [aliasStep_get_ne _ _ _ (by decide), aliasStep_get_ne _ _ _ (by decide),
          aliasStep_get_ne _ _ _ (by decide)]
      rw [hL, hR]
  · exact absurd h4 (List.not_mem_nil _)

theorem c4_alias_propagation_witness :
    dictFind? (applyAliases [(strOf "db", some (strOf "5"))]) (strOf "database")
      = some (dictGet [(strOf "db", some (strOf "5"))] (strOf "db"))
    ∧ dictGet (applyAliases [(strOf "db", some (strOf "5"))]) (strOf "database")
      = dictGet (applyAliases [(strOf "db", some (strOf "5"))]) (strOf "db") :=
  ⟨(c4_alias_propagation [(strOf "db", some (strOf "5"))] (strOf "database") (strOf "db")
      (by decide)).2.1 (by decide),
   (c4_alias_propagation [(strOf "db", some (strOf "5"))] (strOf "database") (strOf "db")
      (by decide)).2.2 (by decide)⟩

-- ===================================================================
-- ACL Applicator claims.
-- ===================================================================

/-- Claim C8: an entry with an absent UID, or whose target directory
does not exist, contributes a skip log entry, no grant invocation and
no processed-tally increment, and the run continues with the remaining
entries; an entry with a present UID and an existing directory
increments the tally exactly once, in dry-run mode as well as on a
successful real run. -/
theorem c8_applicator_skip_semantics (env : ApplyEnv) (root : Str) (dry : Bool)
    (name : Str) (uid : Int) (rest : List (Str × Option Int)) :
    (runEntries env root dry ((name, none) :: rest)
      = (runEntries env root dry rest).map (fun r => (r.1, .skipNoUid name :: r.2)))
    ∧ (env.dirExists (joinPath root name) = false →
      runEntries env root dry ((name, some uid) :: rest)
        = (runEntries env root dry rest).map
            (fun r => (r.1, .skipNoDir name (joinPath root name) :: r.2)))
    ∧ (env.dirExists (joinPath root name) = true →
      runEntries env root true ((name, some uid) :: rest)
        = (runEntries env root true rest).map
            (fun r => (r.1 + 1, .dryRunPrint (setfaclCommand (joinPath root name) uid) :: r.2)))
    ∧ (env.dirExists (joinPath root name) = true →
      ∀ stderr, env.setfacl (setfaclCommand (joinPath root name) uid) = .exited 0 stderr →
      runEntries env root false ((name, some uid) :: rest)
        = (runEntries env root false rest).map
            (fun r => (r.1 + 1, .ranSetfacl (setfaclCommand (joinPath root name) uid) :: r.2))) := by
  refine ⟨rfl, fun hdir => ?_, fun hdir => ?_, fun hdir stderr hset => ?_⟩
  · show (if env.dirExists (joinPath root name) = false then _ else _) = _
    rw [if_pos hdir]
  · show (if env.dirExists (joinPath root name) = false then _ else _) = _
    rw [if_neg (by rw [hdir]; simp)]
    rfl
  · show (if env.dirExists (joinPath root name) = false then _ else _) = _
    rw [if_neg (by rw [hdir]; simp)]
    have happ : apply_setfacl env (joinPath root name) uid false
        = .ok [.ranSetfacl (setfaclCommand (joinPath root name) uid)] := by
      unfold apply_setfacl
      rw [if_neg (by simp), hset]
      show (if (0 : Int) ≠ 0 then
          Except.error (ApplyFatal.setfaclFailed (joinPath root name) 0 stderr)
        else Except.ok [ApplyEvent.ranSetfacl (setfaclCommand (joinPath root name) uid)]) = _
      rw [if_neg (by simp)]
    rw [happ]
    rfl

theorem c8_applicator_skip_semantics_witness :
    runEntries ⟨fun _ => true, fun _ => .exited 0 []⟩ (strOf "/r") true
        ((strOf "a", some 3) :: [])
      = (runEntries ⟨fun _ => true, fun _ => .exited 0 []⟩ (strOf "/r") true []).map
          (fun r => (r.1 + 1,
            .dryRunPrint (setfaclCommand (joinPath (strOf "/r") (strOf "a")) 3) :: r.2)) :=
  (c8_applicator_skip_semantics ⟨fun _ => true, fun _ => .exited 0 []⟩ (strOf "/r") true
    (strOf "a") 3 []).2.2.1 rfl

/-- Claim C9: outside dry-run mode, a missing grant tool or a non-zero
exit of the grant command on any directory aborts the whole run with a
fatal error at that directory, regardless of the remaining entries. -/
theorem c9_applicator_fail_fast (env : ApplyEnv) (root name : Str) (uid : Int)
    (rest : List (Str × Option Int))
    (hdir : env.dirExists (joinPath root name) = true) :
    (env.setfacl (setfaclCommand (joinPath root name) uid) = .notFound →
      runEntries env root false ((name, some uid) :: rest) = .error .setfaclNotFound)
    ∧ (∀ rc stderr,
      env.setfacl (setfaclCommand (joinPath root name) uid) = .exited rc stderr →
      rc ≠ 0 →
      runEntries env root false ((name, some uid) :: rest)
        = .error (.setfaclFailed (joinPath root name) rc stderr)) := by
  constructor
  · intro hset
    show (if env.dirExists (joinPath root name) = false then _ else _) = _
    rw [if_neg (by rw [hdir]; simp)]
    have happ : apply_setfacl env (joinPath root name) uid false
        = .error .setfaclNotFound := by
      unfold apply_setfacl
      rw [if_neg (by simp), hset]
    rw [happ]
  · intro rc stderr hset hrc
    show (if env.dirExists (joinPath root name) = false then _ else _) = _
    rw [if_neg (by rw [hdir]; simp)]
    have happ : apply_setfacl env (joinPath root name) uid false
        = .error (.setfaclFailed (joinPath root name) rc stderr) := by
      unfold apply_setfacl
      rw [if_neg (by simp), hset]
      show (if rc ≠ 0 then
          Except.error (ApplyFatal.setfaclFailed (joinPath root name) rc stderr)
        else Except.ok [ApplyEvent.ranSetfacl (setfaclCommand (joinPath root name) uid)]) = _
      rw [if_pos hrc]
    rw [happ]

theorem c9_applicator_fail_fast_witness :
    runEntries ⟨fun _ => true, fun _ => .notFound⟩ (strOf "/r") false
        ((strOf "a", some 3) :: [(strOf "b", some 4)])
      = .error .setfaclNotFound :=
  (c9_applicator_fail_fast ⟨fun _ => true, fun _ => .notFound⟩ (strOf "/r") (strOf "a") 3
    [(strOf "b", some 4)] rfl).1 rfl

-- ===================================================================
-- Subuid registry parsing (C10).
-- ===================================================================

-- A registry line that matches: non-blank, not a comment, at least
-- three colon-separated fields, first field equal to the username.
def subuidLineMatches (username l : Str) : Prop :=
  (pyStrip l).isEmpty = false ∧ headIsHash (pyStrip l) = false ∧
    3 ≤ (splitOnChar ':' (pyStrip l)).length ∧
    (splitOnChar ':' (pyStrip l)).headD [] = username

instance (username l : Str) : Decidable (subuidLineMatches username l) := by
  unfold subuidLineMatches
  infer_instance

theorem get_subuid_skip {username l : Str} {rest : List Str}
    (h : ¬ subuidLineMatches username l) :
    get_current_user_subuid username (l :: rest) = get_current_user_subuid username rest := by
  simp only [get_current_user_subuid]
  by_cases h1 : (pyStrip l).isEmpty = true
  · rw [if_pos h1]
  · rw [if_neg h1]
    by_cases h2 : headIsHash (pyStrip l) = true
    · rw [if_pos h2]
    · rw [if_neg h2]
      by_cases h3 : (splitOnChar ':' (pyStrip l)).length < 3
      · rw [if_pos h3]
      · rw [if_neg h3]
        have h4 : ¬ (splitOnChar ':' (pyStrip l)).headD [] = username := by
          intro h4
          exact h ⟨by simpa using h1, by simpa using h2, by omega, h4⟩
        rw [if_neg h4]

theorem get_subuid_match {username l : Str} {rest : List Str}
    (hm : subuidLineMatches username l) :
    get_current_user_subuid username (l :: rest)
      = (match pyInt ((splitOnChar ':' (pyStrip l)).getD 1 []) with
        | some base => .ok base
        | none => .error (.invalidBase username ((splitOnChar ':' (pyStrip l)).getD 1 []))) := by
  obtain ⟨h1, h2, h3, h4⟩ := hm
  simp only [get_current_user_subuid]
  rw [if_neg (by rw [h1]; simp), if_neg (by rw [h2]; simp), if_neg (by omega), if_pos h4]

theorem get_subuid_skip_all {username : Str} {pre : List Str}
    (h : ∀ l2 ∈ pre, ¬ subuidLineMatches username l2) (tail : List Str) :
    get_current_user_subuid username (pre ++ tail) = get_current_user_subuid username tail := by
  induction pre with
  | nil => rfl
  | cons a p ih =>
    rw [List.cons_append, get_subuid_skip (h a (by simp))]
    exact ih (fun x hx => h x (List.mem_cons_of_mem a hx))

/-- Claim C10: a registry line with fewer than three colon-separated
fields is silently skipped even when its first field equals the
username; the returned base comes from the first line with at least
three fields whose first field equals the username, and on such a line
only a second field that `int()` rejects is fatal. -/
theorem c10_subuid_registry_parsing :
    (∀ (username l : Str) (rest : List Str),
      (splitOnChar ':' (pyStrip l)).length < 3 →
      get_current_user_subuid username (l :: rest) = get_current_user_subuid username rest)
    ∧ (∀ (username : Str) (pre : List Str) (l : Str) (rest : List Str),
      (∀ l2 ∈ pre, ¬ subuidLineMatches username l2) →
      subuidLineMatches username l →
      (∀ base, pyInt ((splitOnChar ':' (pyStrip l)).getD 1 []) = some base →
        get_current_user_subuid username (pre ++ l :: rest) = .ok base)
      ∧ (pyInt ((splitOnChar ':' (pyStrip l)).getD 1 []) = none →
        get_current_user_subuid username (pre ++ l :: rest)
          = .error (.invalidBase username ((splitOnChar ':' (pyStrip l)).getD 1 [])))) := by
  constructor
  · intro username l rest hlt
    apply get_subuid_skip
    intro hm
    have := hm.2.2.1
    omega
  · intro username pre l rest hpre hm
    constructor
    · intro base hbase
      rw [get_subuid_skip_all hpre, get_subuid_match hm, hbase]
    · intro hbase
      rw [get_subuid_skip_all hpre, get_subuid_match hm, hbase]

theorem c10_subuid_registry_parsing_witness :
    get_current_user_subuid (strOf "alice")
        ((strOf "alice:100000") :: [strOf "alice:165536:65536"])
      = get_current_user_subuid (strOf "alice") [strOf "alice:165536:65536"]
    ∧ get_current_user_subuid (strOf "alice")
        ((strOf "bob:1:2") :: (strOf "alice:165536:65536") :: [])
      = .ok 165536 := by
  constructor
  · exact c10_subuid_registry_parsing.1 (strOf "alice") (strOf "alice:100000")
      [strOf "alice:165536:65536"] (by decide)
  · exact (c10_subuid_registry_parsing.2 (strOf "alice") [strOf "bob:1:2"]
      (strOf "alice:165536:65536") [] (by decide) (by decide)).1 165536 (by decide)

-- ===================================================================
-- Line-continuation handling (C6).
-- ===================================================================

theorem dropWhile_head_not {A : Type} {p : A → Bool} :
    ∀ {s : List A} {c : A} {t : List A}, List.dropWhile p s = c :: t → p c = false := by
  intro s
  induction s with
  | nil => intro c t h; cases h
  | cons a r ih =>
    intro c t h
    rw [List.dropWhile_cons] at h
    by_cases hp : p a = true
    · rw [if_pos hp] at h
      exact ih h
    · rw [if_neg hp] at h
      cases h
      exact Bool.eq_false_iff.mpr hp

theorem headIsHash_append_left {x y : Str} (h : x ≠ []) :
    headIsHash (x ++ y) = headIsHash x := by
  cases x with
  | nil => exact absurd rfl h
  | cons c t => rfl

theorem headIsHash_pyStrip_eq (s : Str) (h : pyStrip s ≠ []) :
    headIsHash (pyStrip s) = headIsHash (stripLeft s) := by
  cases hsl : stripLeft s with
  | nil =>
    exfalso
    apply h
    show stripRight (stripLeft s) = []
    rw [hsl]
    rfl
  | cons c t =>
    have hps : pyStrip s = stripRight (c :: t) := by
      show stripRight (stripLeft s) = _
      rw [hsl]
    rw [hps]
    show headIsHash ((List.dropWhile isSpaceCh ((c :: t).reverse)).reverse) = _
    rw [show (c :: t).reverse = t.reverse ++ [c] from by simp]
    rw [List.dropWhile_append]
    by_cases he : (List.dropWhile isSpaceCh t.reverse).isEmpty = true
    · rw [if_pos he]
      by_cases hc : isSpaceCh c = true
      · exfalso
        apply h
        rw [hps]
        show (List.dropWhile isSpaceCh ((c :: t).reverse)).reverse = []
        rw [show (c :: t).reverse = t.reverse ++ [c] from by simp, List.dropWhile_append,
          if_pos he, List.dropWhile_cons, if_pos hc]
        rfl
      · rw [List.dropWhile_cons, if_neg hc]
        rfl
    · rw [if_neg he]
      rw [List.reverse_append]
      rfl

theorem exists_not_space_of_pyStrip_ne_nil {s : Str} (h : pyStrip s ≠ []) :
    ∃ c ∈ s, isSpaceCh c = false := by
  cases hsl : stripLeft s with
  | nil =>
    exfalso
    apply h
    show stripRight (stripLeft s) = []
    rw [hsl]
    rfl
  | cons c t =>
    refine ⟨c, ?_, dropWhile_head_not hsl⟩
    have hsub : List.Sublist (stripLeft s) s := List.dropWhile_sublist isSpaceCh
    exact hsub.mem (by rw [hsl]; exact List.mem_cons_self c t)

theorem stripLeft_space_cons (b : Str) : stripLeft (' ' :: b) = stripLeft b := by
  unfold stripLeft
  rw [List.dropWhile_cons, if_pos (by decide)]

theorem headIsHash_join_line {a b : Str}
    (h1 : headIsHash (pyStrip (a ++ ['\\'])) = false)
    (h2 : (pyStrip b).isEmpty = false) (h3 : headIsHash (pyStrip b) = false) :
    headIsHash (pyStrip (a ++ ' ' :: b)) = false := by
  have hbne : pyStrip b ≠ [] := by
    intro hh
    rw [hh] at h2
    exact absurd h2 (by decide)
  obtain ⟨c, hc, hcs⟩ := exists_not_space_of_pyStrip_ne_nil hbne
  have hrne : pyStrip (a ++ ' ' :: b) ≠ [] :=
    pyStrip_ne_nil_of_mem (List.mem_append.mpr (Or.inr (List.mem_cons_of_mem _ hc))) hcs
  rw [headIsHash_pyStrip_eq _ hrne]
  rw [show stripLeft (a ++ ' ' :: b)
    = if (stripLeft a).isEmpty = true then stripLeft (' ' :: b)
      else stripLeft a ++ ' ' :: b from List.dropWhile_append]
  by_cases ha : (stripLeft a).isEmpty = true
  · rw [if_pos ha, stripLeft_space_cons, ← headIsHash_pyStrip_eq b hbne]
    exact h3
  · rw [if_neg ha]
    have hane : stripLeft a ≠ [] := fun hh => ha (by rw [hh]; rfl)
    rw [headIsHash_append_left hane]
    have hane2 : pyStrip (a ++ ['\\']) ≠ [] :=
      pyStrip_ne_nil_of_mem
        (show '\\' ∈ a ++ ['\\'] from List.mem_append.mpr (Or.inr (by simp))) (by decide)
    rw [headIsHash_pyStrip_eq _ hane2] at h1
    rw [show stripLeft (a ++ ['\\'])
      = if (stripLeft a).isEmpty = true then stripLeft ['\\']
        else stripLeft a ++ ['\\'] from List.dropWhile_append] at h1
    rw [if_neg ha, headIsHash_append_left hane] at h1
    exact h1

theorem endsWithBackslash_concat (a : Str) :
    endsWithBackslash (a ++ ['\\']) = true := by
  unfold endsWithBackslash
  rw [List.getLast?_append]
  rfl

theorem endsWithBackslash_append_cons {a b : Str} (hb : b ≠ []) :
    endsWithBackslash (a ++ ' ' :: b) = endsWithBackslash b := by
  unfold endsWithBackslash
  rw [List.getLast?_append]
  cases b with
  | nil => exact absurd rfl hb
  | cons x t =>
    rw [List.getLast?_cons_cons]
    cases hg : (x :: t).getLast? with
    | none =>
      exfalso
      have hne : x :: t ≠ [] := by simp
      rw [List.getLast?_eq_none_iff] at hg
      exact hne hg
    | some g => rfl

theorem isEmpty_false_of_ne {s : Str} (h : s ≠ []) : s.isEmpty = false := by
  cases s with
  | nil => exact absurd rfl h
  | cons a t => rfl

/-- Claim C6: a physical line ending in the continuation marker is
joined with the next physical line, with the marker stripped and a
single separating space inserted; a blank line flushes the pending
logical line; and a comment line is dropped before continuation
joining. -/
theorem c6_read_effective_lines :
    (∀ (a b : Str) (rest : List Str),
      headIsHash (pyStrip (a ++ ['\\'])) = false →
      (pyStrip b).isEmpty = false →
      headIsHash (pyStrip b) = false →
      endsWithBackslash b = false →
      read_effective_lines ((a ++ ['\\']) :: b :: rest)
        = read_effective_lines ((a ++ ' ' :: b) :: rest))
    ∧ (∀ (a bl : Str) (rest : List Str),
      pyStrip bl = [] →
      headIsHash (pyStrip (a ++ ['\\'])) = false →
      read_effective_lines ((a ++ ['\\']) :: bl :: rest)
        = pyStrip a :: read_effective_lines rest)
    ∧ (∀ (pending c : Str) (rest : List Str),
      headIsHash (pyStrip c) = true →
      readEffectiveGo pending (c :: rest) = readEffectiveGo pending rest) := by
  refine ⟨?_, ?_, ?_⟩
  · intro a b rest h1 h2 h3 h4
    have hbne : b ≠ [] := by
      intro hb
      rw [hb] at h2
      exact absurd h2 (by decide)
    have hbsne : pyStrip b ≠ [] := by
      intro hh
      rw [hh] at h2
      exact absurd h2 (by decide)
    obtain ⟨c, hc, hcs⟩ := exists_not_space_of_pyStrip_ne_nil hbsne
    have hane2 : pyStrip (a ++ ['\\']) ≠ [] :=
      pyStrip_ne_nil_of_mem
        (show '\\' ∈ a ++ ['\\'] from List.mem_append.mpr (Or.inr (by simp))) (by decide)
    have hlhs1 : (pyStrip (a ++ ['\\'])).isEmpty = false := isEmpty_false_of_ne hane2
    have hrne : pyStrip (a ++ ' ' :: b) ≠ [] :=
      pyStrip_ne_nil_of_mem (List.mem_append.mpr (Or.inr (List.mem_cons_of_mem _ hc))) hcs
    have hrhs1 : (pyStrip (a ++ ' ' :: b)).isEmpty = false := isEmpty_false_of_ne hrne
    have hpe : (a ++ ' ' :: b).isEmpty = false := isEmpty_false_of_ne (by simp)
    show readEffectiveGo [] ((a ++ ['\\']) :: b :: rest)
      = readEffectiveGo [] ((a ++ ' ' :: b) :: rest)
    simp [readEffectiveGo, hlhs1, h1, endsWithBackslash_concat, hrhs1,
      headIsHash_join_line h1 h2 h3, endsWithBackslash_append_cons hbne, h4, h2, h3, hpe]
  · intro a bl rest hbl h1
    have hane2 : pyStrip (a ++ ['\\']) ≠ [] :=
      pyStrip_ne_nil_of_mem
        (show '\\' ∈ a ++ ['\\'] from List.mem_append.mpr (Or.inr (by simp))) (by decide)
    have hlhs1 : (pyStrip (a ++ ['\\'])).isEmpty = false := isEmpty_false_of_ne hane2
    have hpend : (a ++ [' ']).isEmpty = false := isEmpty_false_of_ne (by simp)
    show readEffectiveGo [] ((a ++ ['\\']) :: bl :: rest)
      = pyStrip a :: readEffectiveGo [] rest
    simp [readEffectiveGo, hlhs1, h1, endsWithBackslash_concat, hbl, hpend,
      pyStrip_append_space]
  · intro pending c rest h
    have hcne : pyStrip c ≠ [] := by
      intro hh
      rw [hh] at h
      exact absurd h (by decide)
    have hce : (pyStrip c).isEmpty = false := isEmpty_false_of_ne hcne
    simp [readEffectiveGo, hce, h]

theorem c6_read_effective_lines_witness :
    read_effective_lines ((strOf "RUN adduser" ++ ['\\']) :: strOf "-u 2000 app" :: [])
      = read_effective_lines ((strOf "RUN adduser" ++ ' ' :: strOf "-u 2000 app") :: []) :=
  c6_read_effective_lines.1 (strOf "RUN adduser") (strOf "-u 2000 app") []
    (by decide) (by decide) (by decide) (by decide)

-- ===================================================================
-- UID extraction (C5).
-- ===================================================================

theorem uidFlagMatch_succ (t : Str) (ts : List Str) (i : Nat) :
    uidFlagMatch (t :: ts) (i + 1) = uidFlagMatch ts i := by
  unfold uidFlagMatch
  rw [List.get?_cons_succ, List.get?_cons_succ]

theorem findSome?_range_succ {B : Type} (f : Nat → Option B) (n : Nat) :
    (List.range (n + 1)).findSome? f
      = (match f 0 with
        | some v => some v
        | none => (List.range n).findSome? (fun i => f (i + 1))) := by
  rw [List.range_succ_eq_map, List.findSome?_cons]
  cases f 0 with
  | some v => rfl
  | none =>
    rw [List.findSome?_map]
    rfl

theorem findSome?_first {A B : Type} (f : A → Option B) :
    ∀ (pre : List A) (l : A) (post : List A) (v : B),
    (∀ x ∈ pre, f x = none) → f l = some v →
    (pre ++ l :: post).findSome? f = some v := by
  intro pre
  induction pre with
  | nil =>
    intro l post v _ hl
    rw [List.nil_append, List.findSome?_cons, hl]
  | cons a p ih =>
    intro l post v hpre hl
    rw [List.cons_append, List.findSome?_cons, hpre a (by simp)]
    exact ih l post v (fun x hx => hpre x (List.mem_cons_of_mem a hx)) hl

/-- Claim C5: extraction over a token list returns the value of the
first position carrying a UID marker (`-u` or `--uid`, standalone,
fused or `=`-separated, with a purely-numeric value); tokenization uses
the shell-style tokenizer, falling back to naive whitespace splitting
when it fails; and file scanning stops at the first logical line whose
tokens produce a match, that value being the file's result. -/
theorem c5_uid_extraction :
    (∀ tokens : List Str,
      extract_uid_from_tokens tokens
        = (List.range tokens.length).findSome? (uidFlagMatch tokens))
    ∧ (∀ (line : Str) (ts : List Str),
      shlexSplitLine line = .ok ts → tokenizeLine line = ts)
    ∧ (∀ line : Str,
      shlexSplitLine line = .error () → tokenizeLine line = pySplitWs line)
    ∧ (∀ (physical pre post : List Str) (l v : Str),
      read_effective_lines physical = pre ++ l :: post →
      (∀ l2 ∈ pre, extract_uid_from_tokens (tokenizeLine l2) = none) →
      extract_uid_from_tokens (tokenizeLine l) = some v →
      find_uid_in_file physical = some v) := by
  refine ⟨?_, ?_, ?_, ?_⟩
  · intro tokens
    induction tokens with
    | nil => rfl
    | cons t ts ih =>
      rw [show (t :: ts).length = ts.length + 1 from rfl, findSome?_range_succ,
        show (fun i => uidFlagMatch (t :: ts) (i + 1)) = uidFlagMatch ts from
          funext (uidFlagMatch_succ t ts),
        ← ih]
      by_cases hflag : t = strOf "-u" ∨ t = strOf "--uid"
      · cases ts with
        | nil => simp [extract_uid_from_tokens, uidFlagMatch, hflag]
        | cons v vs =>
          by_cases hv : pyIsDigit v = true
          · simp [extract_uid_from_tokens, uidFlagMatch, hflag, hv]
          · simp [extract_uid_from_tokens, uidFlagMatch, hflag, hv]
      · rw [not_or] at hflag
        obtain ⟨hf1, hf2⟩ := hflag
        by_cases hfused : (strOf "-u") <+: t ∧ ¬ t = strOf "-u"
            ∧ pyIsDigit (dropLeadingEq (t.drop 2)) = true
        · simp [extract_uid_from_tokens, uidFlagMatch, hf1, hf2, hfused]
        · by_cases hlong : (strOf "--uid=") <+: t ∧ pyIsDigit (t.drop 6) = true
          · simp only [extract_uid_from_tokens, uidFlagMatch, List.get?_cons_zero,
              hf1, hf2, hfused, hlong]
            simp [hf1, hf2]
            split <;> (try split) <;> simp_all
          · simp only [extract_uid_from_tokens, uidFlagMatch, List.get?_cons_zero,
              hf1, hf2, hfused, hlong]
            simp [hf1, hf2]
            split <;> (try split) <;> simp_all
  · intro line ts h
    unfold tokenizeLine
    rw [h]
  · intro line h
    unfold tokenizeLine
    rw [h]
  · intro physical pre post l v heff hpre hl
    unfold find_uid_in_file
    rw [heff]
    exact findSome?_first _ pre l post v hpre hl

theorem c5_uid_extraction_witness :
    find_uid_in_file ((strOf "FROM x") :: (strOf "RUN adduser -u 2000 app") :: [])
      = some (strOf "2000") :=
  c5_uid_extraction.2.2.2 ((strOf "FROM x") :: (strOf "RUN adduser -u 2000 app") :: [])
    [strOf "FROM x"] [] (strOf "RUN adduser -u 2000 app") (strOf "2000")
    (by decide) (by decide) (by decide)

end HarborPodman
